import Mathlib

/-!
Verification of `tool.hpp`: `SafeQueue<T>` and `Timer`.

Shallow embedding of the bounded queue `SafeQueue<T>` and of the timer
`Timer` (the poll loop `Timer::run` and the registration call
`Timer::timerEvent`).

Conventions of the embedding.

* Every member function of `SafeQueue` holds `mtx_` for its whole body, so a
  call is one atomic transition of the queue state; it is embedded as a pure
  function from the state before to the result and the state after.  The only
  place where the lock is given up inside a call is the `wait` of
  `SafeQueue::get`; there the embedding stops with the result `waiting`.
* `queue_size_` and `size_limit_` are C `int`s, embedded as `Int`.
  `queue_size_++` runs only under `queue_size_ < size_limit_ <= INT_MAX` and
  `execCount_--` only under `execCount_ > 0`, so neither can overflow.
* Time stamps are millisecond counts of `steady_clock`; they are embedded as
  `Nat`.  The source forms `now + interval` in signed 64-bit arithmetic, which
  is exact for every clock value below `2^63 - 2^32` and undefined above, so
  the embedding is exact on every defined execution.
* A callback `std::function<void()>` is embedded as a label (`Nat`); calling
  it is recorded in a log of `Fired` events.  What a callback does outside the
  timer is not part of the embedding.
* `Timer::run` is the only reader of the queue and the only user of the
  multimap.  Other threads reach the timer through `timerEvent` alone, which is
  one `pushNoCondition` under the queue lock; a run is embedded as a sequence
  of such calls and of iterations of the `while` loop of `run`.  The loop
  condition `allowRunning()` belongs to the base class `ThreadManager`
  (`threadManager.hpp`); how many iterations are made is left open.
-/

namespace Tool

/-! ## SafeQueue -/

/-- State of a `SafeQueue<T>`: the container `queue_` (front of the queue is
the head of the list), the counter `queue_size_` and the bound
`size_limit_`. -/
structure SafeQueue (T : Type) where
  queue_ : List T
  queue_size_ : Int
  size_limit_ : Int
deriving DecidableEq, Repr

/-- Constructor `SafeQueue(int size_limit)`: empty container, counter `0`. -/
def SafeQueue.new {T : Type} (size_limit : Int) : SafeQueue T :=
  { queue_ := [], queue_size_ := 0, size_limit_ := size_limit }

/-- Member `SafeQueue::push(const T&)` (lines 42-51): returned boolean and state
after the call. -/
def SafeQueue.push {T : Type} (q : SafeQueue T) (value : T) : Bool × SafeQueue T :=
  if q.queue_size_ = q.size_limit_ ∨ q.queue_size_ > q.size_limit_ then
    (false, q)
  else
    (true, { q with queue_size_ := q.queue_size_ + 1, queue_ := q.queue_ ++ [value] })

/-- Member `SafeQueue::pushNoCondition(T&&)` (lines 53-61). -/
def SafeQueue.pushNoCondition {T : Type} (q : SafeQueue T) (value : T) : Bool × SafeQueue T :=
  if q.queue_size_ = q.size_limit_ ∨ q.queue_size_ > q.size_limit_ then
    (false, q)
  else
    (true, { q with queue_size_ := q.queue_size_ + 1, queue_ := q.queue_ ++ [value] })

/-- Member `SafeQueue::emplace(T&&)` (lines 88-97): the element is stored
first, the counter is raised second. -/
def SafeQueue.emplace {T : Type} (q : SafeQueue T) (value : T) : Bool × SafeQueue T :=
  if q.queue_size_ = q.size_limit_ ∨ q.queue_size_ > q.size_limit_ then
    (false, q)
  else
    (true, { q with queue_ := q.queue_ ++ [value], queue_size_ := q.queue_size_ + 1 })

/-- Outcome of a call of `get` or `getNoCondition`.

* `returnedFalse q`: the call returned `false`, state `q`;
* `returnedTrue v q`: the call returned `true` with `value = v`, state `q`;
* `waiting q`: the call is suspended in `not_empty_cv_.wait` with the lock
  released and the queue in state `q` (only `get`);
* `undefinedFront`: the call reached `queue_.front()` on an empty container,
  which has no defined behaviour. -/
inductive GetResult (T : Type) where
  | returnedFalse (q : SafeQueue T)
  | returnedTrue (value : T) (q : SafeQueue T)
  | waiting (q : SafeQueue T)
  | undefinedFront
deriving DecidableEq, Repr

/-- Lines 72-74 of `get` and 83-85 of `getNoCondition`:
`value = std::move(queue_.front()); queue_.pop(); return true;`. -/
def SafeQueue.takeFront {T : Type} (q : SafeQueue T) : GetResult T :=
  match q.queue_ with
  | value :: rest => GetResult.returnedTrue value { q with queue_ := rest }
  | [] => GetResult.undefinedFront

/-- Member `SafeQueue::getNoCondition(T&)` (lines 77-86). -/
def SafeQueue.getNoCondition {T : Type} (q : SafeQueue T) : GetResult T :=
  if q.queue_size_ = 0 then
    GetResult.returnedFalse q
  else
    SafeQueue.takeFront { q with queue_size_ := q.queue_size_ - 1 }

/-- Lines 69-74 of `get`: `not_empty_cv_.wait(ulk, pred)` is
`while (!pred()) wait(ulk);` with `pred = (queue_size_ != 0)`.  When the
predicate holds the call goes on to take the front element, otherwise the
thread is suspended.  The same function describes a suspended call that is
woken up: it evaluates the predicate again. -/
def SafeQueue.getWait {T : Type} (q : SafeQueue T) : GetResult T :=
  if q.queue_size_ ≠ 0 then
    SafeQueue.takeFront q
  else
    GetResult.waiting q

/-- Member `SafeQueue::get(T&)` (lines 63-75): the counter is lowered on line
68, before the wait of line 69. -/
def SafeQueue.get {T : Type} (q : SafeQueue T) : GetResult T :=
  if q.queue_size_ = 0 then
    GetResult.returnedFalse q
  else
    SafeQueue.getWait { q with queue_size_ := q.queue_size_ - 1 }

/-- Attempts `pushNoCondition` for every value of a list, in order: the
booleans returned and the final state. -/
def SafeQueue.pushAll {T : Type} : SafeQueue T → List T → List Bool × SafeQueue T
  | q, [] => ([], q)
  | q, v :: vs =>
    let r := q.pushNoCondition v
    let rs := SafeQueue.pushAll r.2 vs
    (r.1 :: rs.1, rs.2)

/-- Calls `getNoCondition` until it returns `false`, at most `fuel` times:
the values obtained, in order, and the final state; `none` when the fuel runs
out or a call has no defined behaviour. -/
def SafeQueue.popAll {T : Type} : Nat → SafeQueue T → Option (List T × SafeQueue T)
  | 0, _ => none
  | fuel + 1, q =>
    match q.getNoCondition with
    | GetResult.returnedFalse q1 => some ([], q1)
    | GetResult.returnedTrue v q1 =>
      match SafeQueue.popAll fuel q1 with
      | some r => some (v :: r.1, r.2)
      | none => none
    | _ => none

/-- The counter agrees with the container: `queue_size_ == queue_.size()`. -/
def SafeQueue.Consistent {T : Type} (q : SafeQueue T) : Prop :=
  q.queue_size_ = (q.queue_.length : Int)

/-- Of the values `vs` offered to the queue, those whose push returned `true`
(`bs` lists the booleans returned), in the order offered. -/
def accepted {T : Type} : List T → List Bool → List T
  | v :: vs, b :: bs => if b then v :: accepted vs bs else accepted vs bs
  | _, _ => []

/-! ## TimerItem and Timer -/

/-- Class `TimerItem` (lines 99-140): due time `timePoint_`, period
`interval_`, remaining count `execCount_` and the callback `func_`, embedded
as a label. -/
structure TimerItem where
  timePoint_ : Nat
  interval_ : Nat
  execCount_ : Int
  func_ : Nat
deriving DecidableEq, Repr

/-- Data members of `Timer` (lines 153-155).  The `std::multimap` is embedded
as the list of its entries in iteration order: ascending keys, entries with
equal keys in insertion order. -/
structure Timer where
  interval_ : Int
  safeQueue_ : SafeQueue TimerItem
  multimapTimer_ : List (Nat × TimerItem)
deriving DecidableEq, Repr

/-- Constructor `Timer::Timer(int interval)` (lines 158-161): a queue of
capacity 1024 and an empty multimap. -/
def Timer.new (interval : Int) : Timer :=
  { interval_ := interval, safeQueue_ := SafeQueue.new 1024, multimapTimer_ := [] }

/-- The registration built on lines 168-170 by a call of `timerEvent` at clock
value `now`: `TimerItem(now + interval, interval, execCount, func)`. -/
def TimerItem.new (now : Nat) (execCount : Int) (interval : Nat) (func : Nat) : TimerItem :=
  { timePoint_ := now + interval, interval_ := interval, execCount_ := execCount, func_ := func }

/-- Member `Timer::timerEvent` (lines 167-171), called when the clock reads
`now`.  The function is `void`: the boolean of `pushNoCondition` is
discarded. -/
def Timer.timerEvent (t : Timer) (now : Nat) (execCount : Int) (interval : Nat) (func : Nat) :
    Timer :=
  { t with safeQueue_ :=
      (t.safeQueue_.pushNoCondition (TimerItem.new now execCount interval func)).2 }

/-- Function `std::multimap::insert(value)`: the entry is placed at the upper
bound of its key, that is before the first entry with a greater key. -/
def multimapInsert (key : Nat) (ti : TimerItem) : List (Nat × TimerItem) → List (Nat × TimerItem)
  | [] => [(key, ti)]
  | e :: es => if key < e.1 then (key, ti) :: e :: es else e :: multimapInsert key ti es

/-- Lines 181-188 of `Timer::run`, the loop that empties the queue into the
multimap, run for at most `fuel` calls of `getNoCondition`; `none` when the
fuel runs out or `getNoCondition` has no defined behaviour. -/
def Timer.drainLoop : Nat → Timer → Option Timer
  | 0, _ => none
  | fuel + 1, t =>
    match t.safeQueue_.getNoCondition with
    | GetResult.returnedFalse q => some { t with safeQueue_ := q }
    | GetResult.returnedTrue ti q =>
      let timePoint := ti.timePoint_
      Timer.drainLoop fuel
        { t with safeQueue_ := q,
                 multimapTimer_ := multimapInsert timePoint ti t.multimapTimer_ }
    | _ => none

/-- Lines 181-188 of `Timer::run`.  Every successful `getNoCondition` removes
one stored element, so one more call than there are stored elements always
reaches the `break` (or an undefined `front()`). -/
def Timer.drain (t : Timer) : Option Timer :=
  Timer.drainLoop (t.safeQueue_.queue_.length + 1) t

/-- One callback invocation (line 192): the clock value read for the entry on
line 190, the key `it->first`, the registration `it->second` as it was when
its `func_` was called, and the result of the `pushNoCondition` of line 198
when that line was reached. -/
structure Fired where
  now : Nat
  key : Nat
  item : TimerItem
  rearm : Option Bool
deriving DecidableEq, Repr

/-- Lines 193-195: `if (execCount_ > 0) execCount_--;`. -/
def TimerItem.countDown (ti : TimerItem) : TimerItem :=
  if ti.execCount_ > 0 then { ti with execCount_ := ti.execCount_ - 1 } else ti

/-- Lines 192-199 for a due entry `(key, ti)` with clock value `timePoint`:
the callback is called, the count is lowered when positive, and when the count
is not zero the registration gets the due time `timePoint + interval_` and is
offered to the queue.  Returns the queue after and the event for the log. -/
def fireEntry (timePoint : Nat) (q : SafeQueue TimerItem) (key : Nat) (ti : TimerItem) :
    SafeQueue TimerItem × Fired :=
  let ti1 := ti.countDown
  if ti1.execCount_ ≠ 0 then
    let r := q.pushNoCondition { ti1 with timePoint_ := timePoint + ti1.interval_ }
    (r.2, { now := timePoint, key := key, item := ti, rearm := some r.1 })
  else
    (q, { now := timePoint, key := key, item := ti, rearm := none })

/-- Lines 189-205 of `Timer::run`, the scan of the multimap from `begin()`.
The iterator always stands at the first remaining entry, because a due entry is
erased and a not yet due entry ends the scan.  The clock value read for the
`j`-th entry examined is `clock j`.  Returns the queue, the remaining entries
and the callbacks invoked, in order. -/
def fireLoop (clock : Nat → Nat) :
    Nat → SafeQueue TimerItem → List (Nat × TimerItem) →
      SafeQueue TimerItem × List (Nat × TimerItem) × List Fired
  | _, q, [] => (q, [], [])
  | j, q, e :: rest =>
    let timePoint := clock j
    if timePoint ≥ e.1 then
      let r := fireEntry timePoint q e.1 e.2
      let s := fireLoop clock (j + 1) r.1 rest
      (s.1, s.2.1, r.2 :: s.2.2)
    else
      (q, e :: rest, [])

/-- Lines 189-205 of `Timer::run` on the timer state. -/
def Timer.fire (clock : Nat → Nat) (t : Timer) : Timer × List Fired :=
  let s := fireLoop clock 0 t.safeQueue_ t.multimapTimer_
  ({ t with safeQueue_ := s.1, multimapTimer_ := s.2.1 }, s.2.2)

/-- One iteration of the `while (allowRunning())` loop of `Timer::run` (lines
180-205): sleep, empty the queue into the multimap, scan the multimap.
`clock j` is the clock value read for the `j`-th entry examined. -/
def Timer.pollIteration (clock : Nat → Nat) (t : Timer) : Option (Timer × List Fired) :=
  match t.drain with
  | some t1 => some (t1.fire clock)
  | none => none

/-- What happens to a timer: a call of `timerEvent` by some thread when the
clock reads `now`, or one iteration of the loop of `Timer::run`.  Calls of
`timerEvent` touch the timer only through `pushNoCondition`, under the queue
lock. -/
inductive Event where
  | timerEvent (now : Nat) (execCount : Int) (interval : Nat) (func : Nat)
  | poll (clock : Nat → Nat)

/-- A timer together with the log of the callbacks invoked so far, oldest
first. -/
structure Sched where
  timer : Timer
  log : List Fired
deriving DecidableEq, Repr

/-- Effect of one event. -/
def Sched.step (s : Sched) : Event → Option Sched
  | Event.timerEvent now execCount interval func =>
    some { s with timer := s.timer.timerEvent now execCount interval func }
  | Event.poll clock =>
    match s.timer.pollIteration clock with
    | some r => some { timer := r.1, log := s.log ++ r.2 }
    | none => none

/-- Effect of a finite sequence of events, in order. -/
def Sched.exec : Sched → List Event → Option Sched
  | s, [] => some s
  | s, ev :: evs =>
    match s.step ev with
    | some s1 => Sched.exec s1 evs
    | none => none

/-- A freshly constructed timer (poll interval `interval`) with an empty
log. -/
def Sched.fresh (interval : Int) : Sched :=
  { timer := Timer.new interval, log := [] }

/-- The first `n` events of an unending run `run 0, run 1, ...`. -/
def firstEvents (run : Nat → Event) (n : Nat) : List Event :=
  (List.range n).map run

/-- Entries of a list of registrations put into a multimap one after the
other, each under its own `timePoint_`: what lines 186-187 do with the values
popped by the loop of lines 181-188. -/
def insertAll : List TimerItem → List (Nat × TimerItem) → List (Nat × TimerItem)
  | [], idx => idx
  | ti :: tis, idx => insertAll tis (multimapInsert ti.timePoint_ ti idx)

/-- The multimap entry `(it->first, it->second)` an invocation was made for. -/
def Fired.entry (e : Fired) : Nat × TimerItem := (e.key, e.item)

/-- The registration offered to the queue on line 198 after the invocation
`e`: count lowered when positive, due time `now + interval_`. -/
def Fired.rearmed (e : Fired) : TimerItem :=
  { e.item.countDown with timePoint_ := e.now + e.item.countDown.interval_ }

/-- The registrations that went back into the queue during the invocations of
a log, in order: those whose `pushNoCondition` of line 198 returned `true`. -/
def requeued : List Fired → List TimerItem
  | [] => []
  | e :: es => if e.rearm = some true then e.rearmed :: requeued es else requeued es

/-- All registrations a timer holds: those in the queue, then those in the
multimap. -/
def Timer.registrations (t : Timer) : List TimerItem :=
  t.safeQueue_.queue_ ++ t.multimapTimer_.map Prod.snd

/-- Number of invocations of the callback `func` in a log. -/
def timesFired (func : Nat) (log : List Fired) : Nat :=
  log.countP (fun e => e.item.func_ = func)

/-- Keys of a multimap in iteration order are ascending. -/
def Ascending (idx : List (Nat × TimerItem)) : Prop :=
  idx.Pairwise (fun a b => a.1 ≤ b.1)

/-- State invariant of a timer: the queue counter agrees with the queue, every
multimap entry is stored under its own `timePoint_`, and the multimap iterates
in ascending key order. -/
def Timer.WF (t : Timer) : Prop :=
  t.safeQueue_.Consistent ∧ (∀ e ∈ t.multimapTimer_, e.1 = e.2.timePoint_) ∧
    Ascending t.multimapTimer_

/-- Every invocation of a log that comes before the first invocation made for
the registration `r` was made for an entry whose key is at most `bound`. -/
def precededBy (r : TimerItem) (bound : Nat) : List Fired → Prop
  | [] => True
  | e :: es => e.item = r ∨ (e.key ≤ bound ∧ precededBy r bound es)

/-- The registrations a timer holds for the callback `func`. -/
def Timer.held (func : Nat) (t : Timer) : List TimerItem :=
  t.registrations.filter (fun x => x.func_ = func)

/-- Bookkeeping for a callback `func` registered once with count `n > 0`: the
timer is well formed and either it holds no registration for `func` and `func`
has been invoked `n` times, or it holds exactly one, with a positive count
that, added to the invocations so far, gives `n`. -/
def Counting (func : Nat) (n : Int) (s : Sched) : Prop :=
  s.timer.WF ∧
    ((s.timer.held func = [] ∧ (timesFired func s.log : Int) = n) ∨
      ∃ r, s.timer.held func = [r] ∧ 0 < r.execCount_ ∧
        r.execCount_ + (timesFired func s.log : Int) = n)

/-- Where a registration held by a timer comes from, relative to a run `evs`
with log `log` that started with the registrations `regs`: it was there at the
start, or it was built by a `timerEvent` call of the run, or it is the
registration re-armed after an invocation of the run. -/
def Origin (regs : List TimerItem) (evs : List Event) (log : List Fired) (x : TimerItem) : Prop :=
  x ∈ regs ∨
    (∃ now c i f, Event.timerEvent now c i f ∈ evs ∧ x = TimerItem.new now c i f) ∨
    (∃ e ∈ log, e.rearm = some true ∧ x = e.rearmed)

/-- A call of one of the member functions `push`, `pushNoCondition`, `emplace`
and `getNoCondition` of a `SafeQueue<T>`. -/
inductive QueueOp (T : Type) where
  | push (value : T)
  | pushNoCondition (value : T)
  | emplace (value : T)
  | getNoCondition
deriving DecidableEq, Repr

/-- State of the queue after one call; `none` when the call has no defined
behaviour. -/
def SafeQueue.call {T : Type} (q : SafeQueue T) : QueueOp T → Option (SafeQueue T)
  | QueueOp.push value => some (q.push value).2
  | QueueOp.pushNoCondition value => some (q.pushNoCondition value).2
  | QueueOp.emplace value => some (q.emplace value).2
  | QueueOp.getNoCondition =>
    match q.getNoCondition with
    | GetResult.returnedFalse q1 => some q1
    | GetResult.returnedTrue _ q1 => some q1
    | _ => none

/-- State of the queue after a finite sequence of calls, in order. -/
def SafeQueue.calls {T : Type} : SafeQueue T → List (QueueOp T) → Option (SafeQueue T)
  | q, [] => some q
  | q, op :: ops =>
    match q.call op with
    | some q1 => SafeQueue.calls q1 ops
    | none => none

/-- A scan of the whole multimap at clock value `now` that fires every due
entry and keeps every entry that is not yet due, without stopping at the first
entry that is not due: the reference the early exit of lines 202-204 is
compared with. -/
def fullScan (now : Nat) :
    SafeQueue TimerItem → List (Nat × TimerItem) →
      SafeQueue TimerItem × List (Nat × TimerItem) × List Fired
  | q, [] => (q, [], [])
  | q, e :: rest =>
    if now ≥ e.1 then
      let r := fireEntry now q e.1 e.2
      let s := fullScan now r.1 rest
      (s.1, s.2.1, r.2 :: s.2.2)
    else
      let s := fullScan now q rest
      (s.1, e :: s.2.1, s.2.2)

/-- The call `timerEvent(...)` as its caller sees it: the value returned, which
is of type `void`, and the timer after the call. -/
def Timer.timerEventCall (t : Timer) (now : Nat) (execCount : Int) (interval : Nat)
    (func : Nat) : Unit × Timer :=
  ((), t.timerEvent now execCount interval func)

/-- Number of `timerEvent` calls in a run. -/
def scheduleCalls : List Event → Nat
  | [] => 0
  | Event.timerEvent _ _ _ _ :: evs => scheduleCalls evs + 1
  | Event.poll _ :: evs => scheduleCalls evs

/-- A run of `n` rounds; each round is one `timerEvent(1, 100, f)` with `f = 7`
made at clock value 0 followed by one poll iteration that reads the clock value
0 throughout. -/
def growthRun : Nat → List Event
  | 0 => []
  | n + 1 => Event.timerEvent 0 1 100 7 :: Event.poll (fun _ => 0) :: growthRun n

/-- A timer whose queue is full: 1024 registrations for callback 9, due at
500, are waiting in the queue, and the multimap holds one entry due at 100 for
callback 1, with count 2 and interval 5. -/
def fullTimer : Timer :=
  { interval_ := 10,
    safeQueue_ := { queue_ := List.replicate 1024 ⟨500, 5, 1, 9⟩, queue_size_ := 1024,
                    size_limit_ := 1024 },
    multimapTimer_ := [(100, ⟨100, 5, 2, 1⟩)] }

/-! ## Theorems -/

/-- C1 -- `pushNoCondition` (tryPush): returns `true`, appends the value at the
back and raises the counter by one exactly when the counter is below the
capacity; otherwise it returns `false` and leaves elements and counter
unchanged. -/
theorem pushNoCondition_spec {T : Type} (q : SafeQueue T) (value : T) :
    ((q.pushNoCondition value).1 = true ↔ q.queue_size_ < q.size_limit_) ∧
    q.pushNoCondition value =
      if q.queue_size_ < q.size_limit_ then
        (true, { queue_ := q.queue_ ++ [value], queue_size_ := q.queue_size_ + 1,
                 size_limit_ := q.size_limit_ })
      else (false, q) := by
  unfold SafeQueue.pushNoCondition
  by_cases h : q.queue_size_ < q.size_limit_
  · have h1 : ¬ (q.queue_size_ = q.size_limit_ ∨ q.queue_size_ > q.size_limit_) := by omega
    simp [h, h1]
  · have h1 : q.queue_size_ = q.size_limit_ ∨ q.queue_size_ > q.size_limit_ := by omega
    simp [h, h1]

/-! ### SafeQueue: pushes and pops -/

theorem pushNoCondition_eq_of_lt {T : Type} (q : SafeQueue T) (value : T)
    (h : q.queue_size_ < q.size_limit_) :
    q.pushNoCondition value =
      (true, { queue_ := q.queue_ ++ [value], queue_size_ := q.queue_size_ + 1,
               size_limit_ := q.size_limit_ }) := by
  have h1 : ¬ (q.queue_size_ = q.size_limit_ ∨ q.queue_size_ > q.size_limit_) := by omega
  simp [SafeQueue.pushNoCondition, h1]

theorem pushNoCondition_eq_of_not_lt {T : Type} (q : SafeQueue T) (value : T)
    (h : ¬ q.queue_size_ < q.size_limit_) :
    q.pushNoCondition value = (false, q) := by
  have h1 : q.queue_size_ = q.size_limit_ ∨ q.queue_size_ > q.size_limit_ := by omega
  simp [SafeQueue.pushNoCondition, h1]

theorem pushNoCondition_size_limit {T : Type} (q : SafeQueue T) (value : T) :
    (q.pushNoCondition value).2.size_limit_ = q.size_limit_ := by
  by_cases h : q.queue_size_ < q.size_limit_
  · rw [pushNoCondition_eq_of_lt q value h]
  · rw [pushNoCondition_eq_of_not_lt q value h]

theorem pushNoCondition_consistent {T : Type} (q : SafeQueue T) (value : T)
    (hq : q.Consistent) : (q.pushNoCondition value).2.Consistent := by
  by_cases h : q.queue_size_ < q.size_limit_
  · rw [pushNoCondition_eq_of_lt q value h]
    unfold SafeQueue.Consistent at hq ⊢
    simp [hq]
  · rw [pushNoCondition_eq_of_not_lt q value h]
    exact hq

theorem getNoCondition_of_zero {T : Type} (q : SafeQueue T) (h : q.queue_size_ = 0) :
    q.getNoCondition = GetResult.returnedFalse q := by
  simp [SafeQueue.getNoCondition, h]

theorem getNoCondition_of_cons {T : Type} (q : SafeQueue T) (v : T) (rest : List T)
    (h : q.queue_size_ ≠ 0) (hv : q.queue_ = v :: rest) :
    q.getNoCondition =
      GetResult.returnedTrue v
        { queue_ := rest, queue_size_ := q.queue_size_ - 1, size_limit_ := q.size_limit_ } := by
  simp [SafeQueue.getNoCondition, SafeQueue.takeFront, h, hv]

theorem pushAll_spec {T : Type} (vs : List T) :
    ∀ q : SafeQueue T, q.Consistent →
      (q.pushAll vs).2.queue_ = q.queue_ ++ accepted vs (q.pushAll vs).1 ∧
      (q.pushAll vs).2.Consistent ∧
      (q.pushAll vs).2.size_limit_ = q.size_limit_ := by
  induction vs with
  | nil => intro q hq; simp [SafeQueue.pushAll, accepted, hq]
  | cons v vs ih =>
    intro q hq
    have hc := pushNoCondition_consistent q v hq
    obtain ⟨h1, h2, h3⟩ := ih (q.pushNoCondition v).2 hc
    simp only [SafeQueue.pushAll]
    refine ⟨?_, h2, ?_⟩
    · rw [h1]
      by_cases h : q.queue_size_ < q.size_limit_
      · simp [pushNoCondition_eq_of_lt q v h, accepted]
      · simp [pushNoCondition_eq_of_not_lt q v h, accepted]
    · rw [h3, pushNoCondition_size_limit]

theorem popAll_spec {T : Type} (fuel : Nat) :
    ∀ q : SafeQueue T, q.Consistent → q.queue_.length < fuel →
      SafeQueue.popAll fuel q =
        some (q.queue_, { queue_ := [], queue_size_ := 0, size_limit_ := q.size_limit_ }) := by
  induction fuel with
  | zero => intro q _ h; omega
  | succ fuel ih =>
    intro q hq hlen
    obtain ⟨l, n, c⟩ := q
    unfold SafeQueue.Consistent at hq
    simp only at hq hlen
    cases l with
    | nil =>
      simp only [List.length_nil, Nat.cast_zero] at hq
      subst hq
      simp [SafeQueue.popAll, SafeQueue.getNoCondition]
    | cons v rest =>
      have hn : n ≠ 0 := by simp only [List.length_cons] at hq; omega
      have hrest : (⟨rest, n - 1, c⟩ : SafeQueue T).Consistent := by
        unfold SafeQueue.Consistent
        simp only [List.length_cons] at hq
        simp only
        omega
      have hl : rest.length < fuel := by simp only [List.length_cons] at hlen; omega
      have := ih ⟨rest, n - 1, c⟩ hrest hl
      simp only [SafeQueue.popAll]
      rw [getNoCondition_of_cons ⟨v :: rest, n, c⟩ v rest hn rfl]
      simp only [this]

/-- C2 -- `getNoCondition` (tryPop): when the counter is zero it returns
`false` and changes nothing; otherwise it removes and returns the front
element.  Consequently the values accepted by a fresh queue of any capacity
come back, in the order pushed, when the queue is popped until it reports
empty, and the queue is then empty again. -/
theorem getNoCondition_fifo {T : Type} (q : SafeQueue T) (v : T) (rest : List T)
    (cap : Int) (vs : List T) (fuel : Nat) (hfuel : vs.length < fuel) :
    (q.queue_size_ = 0 → q.getNoCondition = GetResult.returnedFalse q) ∧
    (q.queue_size_ ≠ 0 → q.queue_ = v :: rest →
      q.getNoCondition =
        GetResult.returnedTrue v
          { queue_ := rest, queue_size_ := q.queue_size_ - 1, size_limit_ := q.size_limit_ }) ∧
    SafeQueue.popAll fuel ((SafeQueue.new cap).pushAll vs).2 =
      some (accepted vs ((SafeQueue.new cap).pushAll vs).1, SafeQueue.new cap) := by
  refine ⟨getNoCondition_of_zero q, getNoCondition_of_cons q v rest, ?_⟩
  have hnew : (SafeQueue.new cap : SafeQueue T).Consistent := by
    simp [SafeQueue.Consistent, SafeQueue.new]
  obtain ⟨h1, h2, h3⟩ := pushAll_spec vs (SafeQueue.new cap) hnew
  have hlen : ((SafeQueue.new cap).pushAll vs).2.queue_.length < fuel := by
    have hsub : ∀ (l : List T) (bs : List Bool), (accepted l bs).length ≤ l.length := by
      intro l
      induction l with
      | nil => intro bs; simp [accepted]
      | cons a l ihl =>
        intro bs
        cases bs with
        | nil => simp [accepted]
        | cons b bs =>
          have := ihl bs
          cases b <;> simp [accepted] <;> omega
    rw [h1]
    have := hsub vs ((SafeQueue.new cap).pushAll vs).1
    simp only [SafeQueue.new, List.nil_append] at this ⊢
    omega
  rw [popAll_spec fuel _ h2 hlen, h1, h3]
  simp [SafeQueue.new]

/-- Witness for C2: a queue holding `1, 2`, and the values `1, 2, 3` offered to
a fresh queue of capacity 2. -/
theorem getNoCondition_fifo_witness :
    (2 : Int) ≠ 0 ∧ [1, 2, 3].length < 4 ∧
    SafeQueue.getNoCondition (⟨[1, 2], 2, 2⟩ : SafeQueue Nat) =
      GetResult.returnedTrue 1 ⟨[2], 1, 2⟩ ∧
    SafeQueue.popAll 4 ((SafeQueue.new 2).pushAll [1, 2, 3]).2 =
      some ([1, 2], SafeQueue.new 2) :=
  ⟨by decide, by decide,
   (getNoCondition_fifo (⟨[1, 2], 2, 2⟩ : SafeQueue Nat) 1 [2] 2 [1, 2, 3] 4 (by decide)).2.1
     (by decide) rfl,
   (getNoCondition_fifo (⟨[1, 2], 2, 2⟩ : SafeQueue Nat) 1 [2] 2 [1, 2, 3] 4 (by decide)).2.2⟩

/-! ### SafeQueue: the capacity law and `get` -/

theorem pushAll_of_room {T : Type} (vs : List T) :
    ∀ q : SafeQueue T, q.queue_size_ + vs.length ≤ q.size_limit_ →
      q.pushAll vs =
        (List.replicate vs.length true,
         { queue_ := q.queue_ ++ vs, queue_size_ := q.queue_size_ + vs.length,
           size_limit_ := q.size_limit_ }) := by
  induction vs with
  | nil => intro q _; simp [SafeQueue.pushAll]
  | cons v vs ih =>
    intro q h
    simp only [List.length_cons, Nat.cast_add, Nat.cast_one] at h
    have hlt : q.queue_size_ < q.size_limit_ := by omega
    simp only [SafeQueue.pushAll, pushNoCondition_eq_of_lt q v hlt]
    rw [ih _ (by simp only; omega)]
    simp only [List.length_cons, List.replicate_succ, List.append_assoc, List.singleton_append,
      Nat.cast_add, Nat.cast_one, Prod.mk.injEq, SafeQueue.mk.injEq, true_and, and_true]
    omega

/-- Capacity law for `pushNoCondition` and `getNoCondition`: a fresh queue of
capacity `C >= 1` accepts `C` values, refuses the next one, and after one
`getNoCondition` accepts a value again. -/
theorem capacity_law_getNoCondition {T : Type} (v w : T) (vs : List T) :
    (SafeQueue.new ((v :: vs).length : Int)).pushAll (v :: vs) =
      (List.replicate (v :: vs).length true,
       { queue_ := v :: vs, queue_size_ := (v :: vs).length,
         size_limit_ := (v :: vs).length }) ∧
    SafeQueue.pushNoCondition
        { queue_ := v :: vs, queue_size_ := (v :: vs).length, size_limit_ := (v :: vs).length }
        w =
      (false, { queue_ := v :: vs, queue_size_ := (v :: vs).length,
                size_limit_ := (v :: vs).length }) ∧
    SafeQueue.getNoCondition
        { queue_ := v :: vs, queue_size_ := (v :: vs).length, size_limit_ := (v :: vs).length } =
      GetResult.returnedTrue v
        { queue_ := vs, queue_size_ := ((v :: vs).length : Int) - 1,
          size_limit_ := (v :: vs).length } ∧
    (SafeQueue.pushNoCondition
        { queue_ := vs, queue_size_ := ((v :: vs).length : Int) - 1,
          size_limit_ := (v :: vs).length } w).1 = true := by
  refine ⟨?_, ?_, ?_, ?_⟩
  · rw [pushAll_of_room]
    · simp [SafeQueue.new]
    · simp [SafeQueue.new]
  · exact pushNoCondition_eq_of_not_lt _ _ (by simp)
  · exact getNoCondition_of_cons _ v vs (by simp only [List.length_cons]; omega) rfl
  · rw [pushNoCondition_eq_of_lt _ _ (by simp)]

/-- With two or more elements counted and stored, `get` does not wait and does
what `getNoCondition` does. -/
theorem get_of_two_le {T : Type} (q : SafeQueue T) (h : 2 ≤ q.queue_size_) :
    q.get = q.getNoCondition := by
  have h0 : q.queue_size_ ≠ 0 := by omega
  have h1 : q.queue_size_ - 1 ≠ 0 := by omega
  simp [SafeQueue.get, SafeQueue.getNoCondition, SafeQueue.getWait, h0, h1]

/-- C3 -- at capacity 1 the capacity law fails for `get`: the first push
succeeds, the second is refused, and `get` then lowers the counter to zero and
is suspended in its wait with the element still stored, so it does not return;
a push made while it is suspended succeeds and leaves two stored elements in a
queue of capacity 1. -/
theorem capacity_law_get_fails (a b c : Nat) :
    (SafeQueue.new 1).pushAll [a, b] = ([true, false], ⟨[a], 1, 1⟩) ∧
    SafeQueue.get (⟨[a], 1, 1⟩ : SafeQueue Nat) = GetResult.waiting ⟨[a], 0, 1⟩ ∧
    SafeQueue.pushNoCondition (⟨[a], 0, 1⟩ : SafeQueue Nat) c = (true, ⟨[a, c], 1, 1⟩) := by
  refine ⟨?_, ?_, ?_⟩ <;> simp [SafeQueue.new, SafeQueue.pushAll, SafeQueue.pushNoCondition,
    SafeQueue.get, SafeQueue.getWait]

/-- C4 -- on a queue holding exactly one element `get` lowers the counter to
zero on line 68 and is then suspended by the wait of line 69, whose predicate
`queue_size_ != 0` is false: nothing is returned and nothing is removed, the
element is still stored while the counter says zero.  Woken up without a push
in between, the call is suspended again. -/
theorem get_single_element_waits (T : Type) (v : T) (size_limit : Int) :
    SafeQueue.get ({ queue_ := [v], queue_size_ := 1, size_limit_ := size_limit } : SafeQueue T) =
      GetResult.waiting { queue_ := [v], queue_size_ := 0, size_limit_ := size_limit } ∧
    SafeQueue.getWait
        ({ queue_ := [v], queue_size_ := 0, size_limit_ := size_limit } : SafeQueue T) =
      GetResult.waiting { queue_ := [v], queue_size_ := 0, size_limit_ := size_limit } := by
  constructor <;> simp [SafeQueue.get, SafeQueue.getWait]

/-! ### The multimap and the drain loop -/

theorem multimapInsert_perm (key : Nat) (ti : TimerItem) (idx : List (Nat × TimerItem)) :
    (multimapInsert key ti idx).Perm ((key, ti) :: idx) := by
  induction idx with
  | nil => simp [multimapInsert]
  | cons e es ih =>
    unfold multimapInsert
    split
    · exact List.Perm.refl _
    · exact (List.Perm.cons e ih).trans (List.Perm.swap _ _ _)

theorem mem_multimapInsert (key : Nat) (ti : TimerItem) (idx : List (Nat × TimerItem))
    (x : Nat × TimerItem) : x ∈ multimapInsert key ti idx ↔ x = (key, ti) ∨ x ∈ idx := by
  rw [(multimapInsert_perm key ti idx).mem_iff, List.mem_cons]

theorem multimapInsert_ascending (key : Nat) (ti : TimerItem) (idx : List (Nat × TimerItem))
    (h : Ascending idx) : Ascending (multimapInsert key ti idx) := by
  unfold Ascending at h ⊢
  induction idx with
  | nil => simp [multimapInsert]
  | cons e es ih =>
    rw [List.pairwise_cons] at h
    unfold multimapInsert
    split
    next hlt =>
      rw [List.pairwise_cons, List.pairwise_cons]
      refine ⟨?_, h.1, h.2⟩
      intro x hx
      rcases List.mem_cons.1 hx with rfl | hx
      · exact Nat.le_of_lt hlt
      · exact Nat.le_trans (Nat.le_of_lt hlt) (h.1 x hx)
    next hge =>
      rw [List.pairwise_cons]
      refine ⟨?_, ih h.2⟩
      intro x hx
      rcases (mem_multimapInsert key ti es x).1 hx with rfl | hx
      · exact Nat.le_of_not_lt hge
      · exact h.1 x hx

theorem insertAll_perm (tis : List TimerItem) :
    ∀ idx, (insertAll tis idx).Perm (tis.map (fun ti => (ti.timePoint_, ti)) ++ idx) := by
  induction tis with
  | nil => intro idx; simp [insertAll]
  | cons ti tis ih =>
    intro idx
    simp only [insertAll, List.map_cons, List.cons_append]
    refine (ih _).trans ?_
    refine (List.Perm.append_left _ (multimapInsert_perm _ _ _)).trans ?_
    exact List.perm_middle

theorem insertAll_ascending (tis : List TimerItem) :
    ∀ idx, Ascending idx → Ascending (insertAll tis idx) := by
  induction tis with
  | nil => intro idx h; simpa [insertAll] using h
  | cons ti tis ih =>
    intro idx h
    exact ih _ (multimapInsert_ascending _ _ _ h)

theorem drainLoop_spec (fuel : Nat) :
    ∀ t : Timer, t.safeQueue_.Consistent → t.safeQueue_.queue_.length < fuel →
      Timer.drainLoop fuel t =
        some { interval_ := t.interval_,
               safeQueue_ := { queue_ := [], queue_size_ := 0,
                               size_limit_ := t.safeQueue_.size_limit_ },
               multimapTimer_ := insertAll t.safeQueue_.queue_ t.multimapTimer_ } := by
  induction fuel with
  | zero => intro t _ h; omega
  | succ fuel ih =>
    intro t hq hlen
    obtain ⟨iv, ⟨l, n, c⟩, idx⟩ := t
    unfold SafeQueue.Consistent at hq
    simp only at hq hlen
    cases l with
    | nil =>
      simp only [List.length_nil, Nat.cast_zero] at hq
      subst hq
      simp [Timer.drainLoop, SafeQueue.getNoCondition, insertAll]
    | cons v rest =>
      have hn : n ≠ 0 := by simp only [List.length_cons] at hq; omega
      have hrest : (⟨rest, n - 1, c⟩ : SafeQueue TimerItem).Consistent := by
        unfold SafeQueue.Consistent
        simp only [List.length_cons] at hq
        simp only
        omega
      have hl : rest.length < fuel := by simp only [List.length_cons] at hlen; omega
      have := ih ⟨iv, ⟨rest, n - 1, c⟩, multimapInsert v.timePoint_ v idx⟩ hrest hl
      simp only [Timer.drainLoop]
      rw [getNoCondition_of_cons ⟨v :: rest, n, c⟩ v rest hn rfl]
      simp only [this, insertAll]

/-- The fuel of `drain` is enough in every state: more fuel gives the same
result, so `drain` is `none` only when a `front()` had no defined behaviour. -/
theorem drainLoop_fuel (fuel : Nat) :
    ∀ t : Timer, t.safeQueue_.queue_.length < fuel → Timer.drainLoop fuel t = t.drain := by
  induction fuel with
  | zero => intro t h; omega
  | succ fuel ih =>
    intro t hlen
    obtain ⟨iv, ⟨l, n, c⟩, idx⟩ := t
    simp only at hlen
    by_cases hn : n = 0
    · simp [Timer.drain, Timer.drainLoop, SafeQueue.getNoCondition, hn]
    · cases l with
      | nil => simp [Timer.drain, Timer.drainLoop, SafeQueue.getNoCondition, hn,
          SafeQueue.takeFront]
      | cons v rest =>
        have hl : rest.length < fuel := by simp only [List.length_cons] at hlen; omega
        have h1 := ih ⟨iv, ⟨rest, n - 1, c⟩, multimapInsert v.timePoint_ v idx⟩ hl
        simp only [Timer.drain, Timer.drainLoop, List.length_cons] at h1 ⊢
        rw [getNoCondition_of_cons ⟨v :: rest, n, c⟩ v rest hn rfl]
        simp only [h1]

theorem drain_spec (t : Timer) (hq : t.safeQueue_.Consistent) :
    t.drain =
      some { interval_ := t.interval_,
             safeQueue_ := { queue_ := [], queue_size_ := 0,
                             size_limit_ := t.safeQueue_.size_limit_ },
             multimapTimer_ := insertAll t.safeQueue_.queue_ t.multimapTimer_ } :=
  drainLoop_spec _ t hq (Nat.lt_succ_self _)

/-! ### The fire loop -/

theorem fireEntry_spec (timePoint : Nat) (q : SafeQueue TimerItem) (key : Nat) (ti : TimerItem) :
    (fireEntry timePoint q key ti).2.now = timePoint ∧
    (fireEntry timePoint q key ti).2.key = key ∧
    (fireEntry timePoint q key ti).2.item = ti ∧
    ((fireEntry timePoint q key ti).2.rearm = none ↔ ti.countDown.execCount_ = 0) ∧
    ((fireEntry timePoint q key ti).2.rearm = some true ↔
      (ti.countDown.execCount_ ≠ 0 ∧ q.queue_size_ < q.size_limit_)) ∧
    (fireEntry timePoint q key ti).1.size_limit_ = q.size_limit_ ∧
    (fireEntry timePoint q key ti).1.queue_ =
      q.queue_ ++ requeued [(fireEntry timePoint q key ti).2] ∧
    (fireEntry timePoint q key ti).1.queue_size_ =
      q.queue_size_ + (requeued [(fireEntry timePoint q key ti).2]).length := by
  unfold fireEntry
  by_cases h0 : ti.countDown.execCount_ = 0
  · simp [h0, requeued]
  · by_cases hlt : q.queue_size_ < q.size_limit_
    · simp [h0, hlt, pushNoCondition_eq_of_lt _ _ hlt, requeued, Fired.rearmed]
    · simp [h0, hlt, pushNoCondition_eq_of_not_lt _ _ hlt, requeued]

theorem requeued_cons (e : Fired) (es : List Fired) :
    requeued (e :: es) = requeued [e] ++ requeued es := by
  by_cases h : e.rearm = some true <;> simp [requeued, h]

theorem requeued_append (l1 l2 : List Fired) :
    requeued (l1 ++ l2) = requeued l1 ++ requeued l2 := by
  induction l1 with
  | nil => simp [requeued]
  | cons e es ih =>
    rw [List.cons_append, requeued_cons, ih, requeued_cons e es, List.append_assoc]

theorem fireLoop_spec (clock : Nat → Nat) (idx : List (Nat × TimerItem)) :
    ∀ (j : Nat) (q : SafeQueue TimerItem),
      idx = (fireLoop clock j q idx).2.2.map Fired.entry ++ (fireLoop clock j q idx).2.1 ∧
      (fireLoop clock j q idx).1.queue_ = q.queue_ ++ requeued (fireLoop clock j q idx).2.2 ∧
      (fireLoop clock j q idx).1.queue_size_ =
        q.queue_size_ + (requeued (fireLoop clock j q idx).2.2).length ∧
      (fireLoop clock j q idx).1.size_limit_ = q.size_limit_ ∧
      (∀ e ∈ (fireLoop clock j q idx).2.2,
        e.key ≤ e.now ∧ (e.rearm = none ↔ e.item.countDown.execCount_ = 0)) ∧
      (∀ e ∈ (fireLoop clock j q idx).2.1.head?, ∃ k, clock k < e.1) := by
  induction idx with
  | nil => intro j q; simp [fireLoop, requeued]
  | cons e rest ih =>
    intro j q
    by_cases hdue : clock j ≥ e.1
    · obtain ⟨h1, h2, h3, h4, h5, h6, h7, h8⟩ := fireEntry_spec (clock j) q e.1 e.2
      obtain ⟨i1, i2, i3, i4, i5, i6⟩ := ih (j + 1) (fireEntry (clock j) q e.1 e.2).1
      simp only [fireLoop, hdue, if_true]
      refine ⟨?_, ?_, ?_, ?_, ?_, i6⟩
      · simp only [List.map_cons, List.cons_append]
        rw [← i1]
        simp [Fired.entry, h2, h3]
      · rw [i2, h7, requeued_cons _ (fireLoop _ _ _ _).2.2, List.append_assoc]
      · rw [i3, h8, requeued_cons _ (fireLoop _ _ _ _).2.2, List.length_append]
        push_cast
        ring
      · rw [i4, h6]
      · intro x hx
        rcases List.mem_cons.1 hx with rfl | hx
        · rw [h1, h2, h3]
          exact ⟨hdue, h4⟩
        · exact i5 x hx
    · simp only [fireLoop, hdue, if_false]
      refine ⟨by simp, by simp [requeued], by simp [requeued], trivial, by simp, ?_⟩
      intro x hx
      simp only [List.head?_cons, Option.mem_def, Option.some.injEq] at hx
      subst hx
      exact ⟨j, Nat.lt_of_not_ge hdue⟩

/-! ### One poll iteration and runs of events -/

theorem insertAll_snd_perm (tis : List TimerItem) (idx : List (Nat × TimerItem)) :
    ((insertAll tis idx).map Prod.snd).Perm (tis ++ idx.map Prod.snd) := by
  have h := (insertAll_perm tis idx).map Prod.snd
  simpa [List.map_append, Function.comp_def] using h

theorem insertAll_keys (tis : List TimerItem) (idx : List (Nat × TimerItem))
    (h : ∀ e ∈ idx, e.1 = e.2.timePoint_) : ∀ e ∈ insertAll tis idx, e.1 = e.2.timePoint_ := by
  intro e he
  rw [(insertAll_perm tis idx).mem_iff, List.mem_append] at he
  rcases he with he | he
  · obtain ⟨ti, _, rfl⟩ := List.mem_map.1 he
    rfl
  · exact h e he

theorem timerEvent_WF (t : Timer) (now : Nat) (execCount : Int) (interval func : Nat)
    (h : t.WF) : (t.timerEvent now execCount interval func).WF :=
  ⟨pushNoCondition_consistent _ _ h.1, h.2.1, h.2.2⟩

theorem pollIteration_spec (clock : Nat → Nat) (t : Timer) (h : t.WF) :
    ∃ t1 log, t.pollIteration clock = some (t1, log) ∧ t1.WF ∧
      insertAll t.safeQueue_.queue_ t.multimapTimer_ = log.map Fired.entry ++ t1.multimapTimer_ ∧
      Ascending (insertAll t.safeQueue_.queue_ t.multimapTimer_) ∧
      t1.safeQueue_.queue_ = requeued log ∧
      t1.safeQueue_.size_limit_ = t.safeQueue_.size_limit_ ∧
      t1.interval_ = t.interval_ ∧
      (∀ e ∈ log, e.key ≤ e.now ∧ e.key = e.item.timePoint_ ∧
        (e.rearm = none ↔ e.item.countDown.execCount_ = 0)) ∧
      (∀ e ∈ t1.multimapTimer_.head?, ∃ k, clock k < e.1) := by
  obtain ⟨hq, hk, ha⟩ := h
  have hd := drain_spec t hq
  obtain ⟨f1, f2, f3, f4, f5, f6⟩ :=
    fireLoop_spec clock (insertAll t.safeQueue_.queue_ t.multimapTimer_) 0
      { queue_ := [], queue_size_ := 0, size_limit_ := t.safeQueue_.size_limit_ }
  have hasc := insertAll_ascending t.safeQueue_.queue_ _ ha
  have hkeys := insertAll_keys t.safeQueue_.queue_ _ hk
  refine ⟨{ interval_ := t.interval_,
             safeQueue_ := (fireLoop clock 0
               { queue_ := [], queue_size_ := 0, size_limit_ := t.safeQueue_.size_limit_ }
               (insertAll t.safeQueue_.queue_ t.multimapTimer_)).1,
             multimapTimer_ := (fireLoop clock 0
               { queue_ := [], queue_size_ := 0, size_limit_ := t.safeQueue_.size_limit_ }
               (insertAll t.safeQueue_.queue_ t.multimapTimer_)).2.1 },
    (fireLoop clock 0
      { queue_ := [], queue_size_ := 0, size_limit_ := t.safeQueue_.size_limit_ }
      (insertAll t.safeQueue_.queue_ t.multimapTimer_)).2.2, ?_, ?_, f1, hasc, ?_, f4, rfl, ?_, f6⟩
  · simp only [Timer.pollIteration, hd, Timer.fire]
  · refine ⟨?_, ?_, ?_⟩
    · unfold SafeQueue.Consistent
      simp only
      rw [f3, f2]
      simp
    · intro e he
      apply hkeys
      rw [f1]
      exact List.mem_append_right _ he
    · unfold Ascending at hasc ⊢
      rw [f1] at hasc
      exact (List.pairwise_append.1 hasc).2.1
  · simpa using f2
  · intro e he
    refine ⟨(f5 e he).1, ?_, (f5 e he).2⟩
    have : e.entry ∈ insertAll t.safeQueue_.queue_ t.multimapTimer_ := by
      rw [f1]
      exact List.mem_append_left _ (List.mem_map_of_mem _ he)
    exact hkeys _ this

theorem exec_append (evs1 evs2 : List Event) :
    ∀ s : Sched, s.exec (evs1 ++ evs2) =
      match s.exec evs1 with
      | some s1 => s1.exec evs2
      | none => none := by
  induction evs1 with
  | nil => intro s; simp [Sched.exec]
  | cons ev evs ih =>
    intro s
    simp only [List.cons_append, Sched.exec]
    cases s.step ev with
    | none => rfl
    | some s1 => exact ih s1

theorem firstEvents_succ (run : Nat → Event) (n : Nat) :
    firstEvents run (n + 1) = firstEvents run n ++ [run n] := by
  simp [firstEvents, List.range_succ]

theorem step_spec (ev : Event) (s : Sched) (h : s.timer.WF) :
    ∃ s1 new, s.step ev = some s1 ∧ s1.timer.WF ∧ s1.log = s.log ++ new ∧
      ∀ e ∈ new, e.key ≤ e.now ∧ e.key = e.item.timePoint_ := by
  cases ev with
  | timerEvent now execCount interval func =>
    exact ⟨_, [], rfl, timerEvent_WF _ _ _ _ _ h, by simp, by simp⟩
  | poll clock =>
    obtain ⟨t1, log, h1, h2, -, -, -, -, -, h3, -⟩ := pollIteration_spec clock s.timer h
    refine ⟨{ timer := t1, log := s.log ++ log }, log, ?_, h2, rfl,
      fun e he => ⟨(h3 e he).1, (h3 e he).2.1⟩⟩
    simp only [Sched.step, h1]

theorem exec_spec (evs : List Event) :
    ∀ s : Sched, s.timer.WF →
      ∃ s1 new, s.exec evs = some s1 ∧ s1.timer.WF ∧ s1.log = s.log ++ new ∧
        ∀ e ∈ new, e.key ≤ e.now ∧ e.key = e.item.timePoint_ := by
  induction evs with
  | nil => intro s h; exact ⟨s, [], rfl, h, by simp, by simp⟩
  | cons ev evs ih =>
    intro s h
    obtain ⟨s1, new1, h1, h2, h3, h4⟩ := step_spec ev s h
    obtain ⟨s2, new2, g1, g2, g3, g4⟩ := ih s1 h2
    refine ⟨s2, new1 ++ new2, ?_, g2, ?_, ?_⟩
    · simp only [Sched.exec, h1, g1]
    · rw [g3, h3, List.append_assoc]
    · intro e he
      rcases List.mem_append.1 he with he | he
      · exact h4 e he
      · exact g4 e he

theorem fresh_WF (interval : Int) : (Sched.fresh interval).timer.WF := by
  refine ⟨?_, ?_, ?_⟩
  · simp [Sched.fresh, Timer.new, SafeQueue.new, SafeQueue.Consistent]
  · simp [Sched.fresh, Timer.new]
  · simp [Sched.fresh, Timer.new, Ascending]

/-- C10 -- `timerEvent` called at clock value `now` with count `c`, interval
`i` and callback `w`: when the queue counter is below the capacity the
registration `(now + i, i, c, w)` is appended at the back of the queue and the
counter is raised by one; otherwise the queue is unchanged; the multimap and
the poll interval are untouched in both cases. -/
theorem timerEvent_spec (t : Timer) (now : Nat) (c : Int) (i w : Nat) :
    (t.timerEvent now c i w).multimapTimer_ = t.multimapTimer_ ∧
    (t.timerEvent now c i w).interval_ = t.interval_ ∧
    (t.timerEvent now c i w).safeQueue_ =
      if t.safeQueue_.queue_size_ < t.safeQueue_.size_limit_ then
        { queue_ := t.safeQueue_.queue_ ++
            [{ timePoint_ := now + i, interval_ := i, execCount_ := c, func_ := w }],
          queue_size_ := t.safeQueue_.queue_size_ + 1,
          size_limit_ := t.safeQueue_.size_limit_ }
      else t.safeQueue_ := by
  refine ⟨rfl, rfl, ?_⟩
  by_cases h : t.safeQueue_.queue_size_ < t.safeQueue_.size_limit_
  · simp [Timer.timerEvent, pushNoCondition_eq_of_lt _ _ h, h, TimerItem.new]
  · simp [Timer.timerEvent, pushNoCondition_eq_of_not_lt _ _ h, h]

/-! ### Counts that are zero or negative -/

/-- A due registration with a negative count keeps its count and interval and
is offered to the queue with due time `now + interval_`; when the queue has
room it is appended there. -/
theorem fireEntry_of_neg (now key : Nat) (q : SafeQueue TimerItem) (ti : TimerItem)
    (hneg : ti.execCount_ < 0) (hroom : q.queue_size_ < q.size_limit_) :
    fireEntry now q key ti =
      ({ queue_ := q.queue_ ++ [{ ti with timePoint_ := now + ti.interval_ }],
         queue_size_ := q.queue_size_ + 1, size_limit_ := q.size_limit_ },
       { now := now, key := key, item := ti, rearm := some true }) := by
  have h1 : ¬ ti.execCount_ > 0 := by omega
  have h2 : ti.execCount_ ≠ 0 := by omega
  simp [fireEntry, TimerItem.countDown, h1, h2, pushNoCondition_eq_of_lt _ _ hroom]

/-- C6 -- a registration with count `0` is not re-armed: line 193 leaves the
count at `0`, the test `execCount_ != 0` of line 196 fails, and the entry is
erased.  A `timerEvent(0, 20, f)` on a fresh timer therefore invokes `f` once
and then the timer holds nothing, whatever the later clock values. -/
theorem zero_count_fires_once (now key tp i f : Nat) (q : SafeQueue TimerItem) :
    fireEntry now q key { timePoint_ := tp, interval_ := i, execCount_ := 0, func_ := f } =
      (q, { now := now, key := key,
            item := { timePoint_ := tp, interval_ := i, execCount_ := 0, func_ := f },
            rearm := none }) ∧
    (Sched.fresh 10).exec
        [Event.timerEvent 0 0 20 7, Event.poll (fun _ => 30), Event.poll (fun _ => 60),
         Event.poll (fun _ => 90), Event.poll (fun _ => 120)] =
      some { timer := Timer.new 10,
             log := [{ now := 30, key := 20, item := ⟨20, 20, 0, 7⟩, rearm := none }] } := by
  constructor
  · simp [fireEntry, TimerItem.countDown]
  · decide

/-! ### No zero count in the multimap -/

theorem mem_requeued (x : TimerItem) (log : List Fired) :
    x ∈ requeued log ↔ ∃ e ∈ log, e.rearm = some true ∧ x = e.rearmed := by
  induction log with
  | nil => simp [requeued]
  | cons e es ih =>
    by_cases h : e.rearm = some true
    · simp only [requeued, h, if_true, List.mem_cons, ih]
      constructor
      · rintro (rfl | ⟨e1, h1, h2, h3⟩)
        · exact ⟨e, Or.inl rfl, h, rfl⟩
        · exact ⟨e1, Or.inr h1, h2, h3⟩
      · rintro ⟨e1, rfl | h1, h2, h3⟩
        · exact Or.inl h3
        · exact Or.inr ⟨e1, h1, h2, h3⟩
    · simp only [requeued, h, if_false, List.mem_cons, ih]
      constructor
      · rintro ⟨e1, h1, h2, h3⟩
        exact ⟨e1, Or.inr h1, h2, h3⟩
      · rintro ⟨e1, rfl | h1, h2, h3⟩
        · exact absurd h2 h
        · exact ⟨e1, h1, h2, h3⟩

theorem pollIteration_registrations (clock : Nat → Nat) (t : Timer) (h : t.WF) :
    ∃ t1 log, t.pollIteration clock = some (t1, log) ∧ t1.WF ∧
      (∀ e ∈ log, e.item ∈ t.registrations ∧
        (e.rearm = none ↔ e.item.countDown.execCount_ = 0)) ∧
      (∀ x ∈ t1.registrations,
        (∃ e ∈ log, e.rearm = some true ∧ x = e.rearmed) ∨ x ∈ t.registrations) := by
  obtain ⟨t1, log, h1, h2, h3, -, h5, -, -, h8, -⟩ := pollIteration_spec clock t h
  have hperm := insertAll_snd_perm t.safeQueue_.queue_ t.multimapTimer_
  refine ⟨t1, log, h1, h2, ?_, ?_⟩
  · intro e he
    refine ⟨?_, (h8 e he).2.2⟩
    have : e.item ∈ (insertAll t.safeQueue_.queue_ t.multimapTimer_).map Prod.snd := by
      rw [h3]
      simp only [List.map_append, List.map_map, List.mem_append, List.mem_map,
        Function.comp_apply]
      exact Or.inl ⟨e, he, rfl⟩
    exact hperm.mem_iff.1 this
  · intro x hx
    unfold Timer.registrations at hx
    rw [h5] at hx
    rcases List.mem_append.1 hx with hx | hx
    · exact Or.inl ((mem_requeued x log).1 hx)
    · right
      apply hperm.mem_iff.1
      rw [h3, List.map_append]
      exact List.mem_append_right _ hx

theorem timerEvent_registrations (t : Timer) (now : Nat) (c : Int) (i w : Nat) (x : TimerItem)
    (hx : x ∈ (t.timerEvent now c i w).registrations) :
    x = TimerItem.new now c i w ∨ x ∈ t.registrations := by
  unfold Timer.registrations at hx ⊢
  by_cases h : t.safeQueue_.queue_size_ < t.safeQueue_.size_limit_
  · simp only [Timer.timerEvent, pushNoCondition_eq_of_lt _ _ h, List.append_assoc,
      List.mem_append, List.mem_singleton, List.mem_cons] at hx ⊢
    tauto
  · simp only [Timer.timerEvent, pushNoCondition_eq_of_not_lt _ _ h] at hx
    exact Or.inr hx

theorem exec_nonzero (evs : List Event) :
    ∀ s : Sched, s.timer.WF → (∀ x ∈ s.timer.registrations, x.execCount_ ≠ 0) →
      (∀ now c i f, Event.timerEvent now c i f ∈ evs → c ≠ 0) →
      ∃ s1, s.exec evs = some s1 ∧ ∀ x ∈ s1.timer.registrations, x.execCount_ ≠ 0 := by
  induction evs with
  | nil => intro s _ h _; exact ⟨s, rfl, h⟩
  | cons ev evs ih =>
    intro s hwf hs hevs
    have hevs1 : ∀ now c i f, Event.timerEvent now c i f ∈ evs → c ≠ 0 :=
      fun now c i f hm => hevs now c i f (List.mem_cons_of_mem _ hm)
    cases ev with
    | timerEvent now c i f =>
      have hc : c ≠ 0 := hevs now c i f (List.mem_cons_self _ _)
      have hs1 : ∀ x ∈ (s.timer.timerEvent now c i f).registrations, x.execCount_ ≠ 0 := by
        intro x hx
        rcases timerEvent_registrations _ _ _ _ _ x hx with rfl | hx
        · exact hc
        · exact hs x hx
      obtain ⟨s1, g1, g2⟩ := ih { s with timer := s.timer.timerEvent now c i f }
        (timerEvent_WF _ _ _ _ _ hwf) hs1 hevs1
      exact ⟨s1, by simp only [Sched.exec, Sched.step, g1], g2⟩
    | poll clock =>
      obtain ⟨t1, log, h1, h2, h3, h4⟩ := pollIteration_registrations clock s.timer hwf
      have hs1 : ∀ x ∈ t1.registrations, x.execCount_ ≠ 0 := by
        intro x hx
        rcases h4 x hx with ⟨e, he, hr, rfl⟩ | hx
        · intro h0
          have := (h3 e he).2.2 h0
          rw [hr] at this
          exact absurd this (by simp)
        · exact hs x hx
      obtain ⟨s1, g1, g2⟩ := ih { timer := t1, log := s.log ++ log } h2 hs1 hevs1
      exact ⟨s1, by simp only [Sched.exec, Sched.step, h1, g1], g2⟩

/-- C9, counterexample -- `timerEvent(0, 20, f)` on a fresh timer followed by
one poll iteration at clock value 0 leaves a registration with count `0` in
the multimap. -/
theorem zero_count_in_multimap :
    (Sched.fresh 10).exec [Event.timerEvent 0 0 20 7, Event.poll (fun _ => 0)] =
      some { timer := { interval_ := 10, safeQueue_ := SafeQueue.new 1024,
                        multimapTimer_ := [(20, ⟨20, 20, 0, 7⟩)] },
             log := [] } := by
  decide

/-- C9, amended -- in every state reached from a fresh timer by `timerEvent`
calls with a count other than zero and poll iterations, no registration in the
multimap, and none in the queue, has count `0`. -/
theorem no_zero_count_of_nonzero_requests (interval : Int) (evs : List Event)
    (h : ∀ now c i f, Event.timerEvent now c i f ∈ evs → c ≠ 0) :
    ∃ s, (Sched.fresh interval).exec evs = some s ∧
      (∀ e ∈ s.timer.multimapTimer_, e.2.execCount_ ≠ 0) ∧
      (∀ x ∈ s.timer.safeQueue_.queue_, x.execCount_ ≠ 0) := by
  obtain ⟨s, h1, h2⟩ := exec_nonzero evs (Sched.fresh interval) (fresh_WF interval)
    (by simp [Sched.fresh, Timer.new, Timer.registrations, SafeQueue.new]) h
  refine ⟨s, h1, ?_, ?_⟩
  · intro e he
    exact h2 e.2 (List.mem_append_right _ (List.mem_map_of_mem _ he))
  · intro x hx
    exact h2 x (List.mem_append_left _ hx)

/-- Witness for C9: a registration with count 2 and interval 20 made at clock
value 0, then poll iterations at clock values 0 and 30. -/
theorem no_zero_count_of_nonzero_requests_witness :
    ∃ s, (Sched.fresh 10).exec
        [Event.timerEvent 0 2 20 7, Event.poll (fun _ => 0), Event.poll (fun _ => 30)] = some s ∧
      (∀ e ∈ s.timer.multimapTimer_, e.2.execCount_ ≠ 0) ∧
      (∀ x ∈ s.timer.safeQueue_.queue_, x.execCount_ ≠ 0) :=
  no_zero_count_of_nonzero_requests 10
    [Event.timerEvent 0 2 20 7, Event.poll (fun _ => 0), Event.poll (fun _ => 30)]
    (by
      intro now c i f hm
      simp only [List.mem_cons, Event.timerEvent.injEq, List.mem_singleton, List.not_mem_nil,
        or_false, reduceCtorEq] at hm
      omega)

/-! ### Order of invocations -/

theorem precededBy_append (r : TimerItem) (bound : Nat) (l1 l2 : List Fired) :
    precededBy r bound (l1 ++ l2) ↔
      precededBy r bound l1 ∧ ((∃ e ∈ l1, e.item = r) ∨ precededBy r bound l2) := by
  induction l1 with
  | nil => simp [precededBy]
  | cons e es ih =>
    rw [List.cons_append]
    simp only [precededBy, List.mem_cons, exists_eq_or_imp]
    rw [ih]
    by_cases he : e.item = r
    · simp [he]
    · by_cases hP : ∃ a ∈ es, a.item = r
      · simp [he, hP]
      · simp only [he, hP, false_or]
        constructor
        · rintro ⟨a, b, c⟩
          exact ⟨⟨a, b⟩, c⟩
        · rintro ⟨⟨a, b⟩, c⟩
          exact ⟨a, b, c⟩

theorem precededBy_split (r : TimerItem) (bound : Nat) (pre post : List Fired) (e2 : Fired)
    (h : precededBy r bound (pre ++ e2 :: post)) (hlt : bound < e2.key) (hne : e2.item ≠ r) :
    ∃ e1 ∈ pre, e1.item = r := by
  rcases (precededBy_append r bound pre (e2 :: post)).1 h with ⟨_, h1 | h1⟩
  · exact h1
  · simp only [precededBy] at h1
    rcases h1 with h1 | h1
    · exact absurd h1 hne
    · omega

theorem fired_prefix_precededBy (r : TimerItem) (bound : Nat) (rest : List (Nat × TimerItem)) :
    ∀ log : List Fired, Ascending (log.map Fired.entry ++ rest) →
      (bound, r) ∈ log.map Fired.entry ++ rest →
      precededBy r bound log ∧ ((∃ e ∈ log, e.item = r) ∨ (bound, r) ∈ rest) := by
  intro log
  induction log with
  | nil => intro _ hm; exact ⟨trivial, Or.inr (by simpa using hm)⟩
  | cons e es ih =>
    intro hasc hm
    unfold Ascending at hasc
    simp only [List.map_cons, List.cons_append, List.pairwise_cons] at hasc
    by_cases he : e.item = r
    · exact ⟨Or.inl he, Or.inl ⟨e, List.mem_cons_self _ _, he⟩⟩
    · simp only [List.map_cons, List.cons_append, List.mem_cons] at hm
      rcases hm with hm | hm
      · exact absurd (congrArg Prod.snd hm).symm he
      · obtain ⟨i1, i2⟩ := ih hasc.2 hm
        refine ⟨Or.inr ⟨hasc.1 _ hm, i1⟩, ?_⟩
        rcases i2 with ⟨e1, h1, h2⟩ | i2
        · exact Or.inl ⟨e1, List.mem_cons_of_mem _ h1, h2⟩
        · exact Or.inr i2

theorem step_due_order (r : TimerItem) (ev : Event) (s : Sched) (hwf : s.timer.WF)
    (hr : r ∈ s.timer.registrations) :
    ∃ s1 new, s.step ev = some s1 ∧ s1.timer.WF ∧ s1.log = s.log ++ new ∧
      precededBy r r.timePoint_ new ∧
      ((∃ e ∈ new, e.item = r) ∨ r ∈ s1.timer.registrations) := by
  cases ev with
  | timerEvent now c i f =>
    refine ⟨{ s with timer := s.timer.timerEvent now c i f }, [], rfl,
      timerEvent_WF _ _ _ _ _ hwf, by simp, trivial, Or.inr ?_⟩
    unfold Timer.registrations at hr ⊢
    by_cases h : s.timer.safeQueue_.queue_size_ < s.timer.safeQueue_.size_limit_
    · simp only [Timer.timerEvent, pushNoCondition_eq_of_lt _ _ h, List.append_assoc,
        List.mem_append, List.mem_singleton, List.mem_cons] at hr ⊢
      tauto
    · simpa only [Timer.timerEvent, pushNoCondition_eq_of_not_lt _ _ h] using hr
  | poll clock =>
    obtain ⟨t1, log, h1, h2, h3, h4, -, -, -, -, -⟩ := pollIteration_spec clock s.timer hwf
    have hmem : (r.timePoint_, r) ∈ insertAll s.timer.safeQueue_.queue_ s.timer.multimapTimer_ := by
      rw [(insertAll_perm _ _).mem_iff, List.mem_append]
      rcases List.mem_append.1 hr with hr | hr
      · exact Or.inl (List.mem_map.2 ⟨r, hr, rfl⟩)
      · obtain ⟨e, he, rfl⟩ := List.mem_map.1 hr
        right
        have := hwf.2.1 e he
        rw [← this]
        exact he
    rw [h3] at h4 hmem
    obtain ⟨g1, g2⟩ := fired_prefix_precededBy r r.timePoint_ t1.multimapTimer_ log h4 hmem
    refine ⟨{ timer := t1, log := s.log ++ log }, log, ?_, h2, rfl, g1, ?_⟩
    · simp only [Sched.step, h1]
    · rcases g2 with g2 | g2
      · exact Or.inl g2
      · exact Or.inr (List.mem_append_right _ (List.mem_map.2 ⟨_, g2, rfl⟩))

theorem exec_due_order (r : TimerItem) (evs : List Event) :
    ∀ s : Sched, s.timer.WF → r ∈ s.timer.registrations →
      ∃ s1 new, s.exec evs = some s1 ∧ s1.log = s.log ++ new ∧
        (∀ e ∈ new, e.key = e.item.timePoint_) ∧ precededBy r r.timePoint_ new := by
  induction evs with
  | nil => intro s _ _; exact ⟨s, [], rfl, by simp, by simp, trivial⟩
  | cons ev evs ih =>
    intro s hwf hr
    obtain ⟨s1, new1, h1, h2, h3, h4, h5⟩ := step_due_order r ev s hwf hr
    obtain ⟨s1b, new1b, k1, -, k3, k4⟩ := step_spec ev s hwf
    rw [h1] at k1
    cases k1
    have hk : ∀ e ∈ new1, e.key = e.item.timePoint_ := by
      have : new1 = new1b := List.append_cancel_left (h3.symm.trans k3)
      intro e he
      exact (k4 e (this ▸ he)).2
    rcases h5 with h5 | h5
    · obtain ⟨s2, new2, g1, -, g3, g4⟩ := exec_spec evs s1 h2
      refine ⟨s2, new1 ++ new2, ?_, ?_, ?_, ?_⟩
      · simp only [Sched.exec, h1, g1]
      · rw [g3, h3, List.append_assoc]
      · intro e he
        rcases List.mem_append.1 he with he | he
        · exact hk e he
        · exact (g4 e he).2
      · exact (precededBy_append _ _ _ _).2 ⟨h4, Or.inl h5⟩
    · obtain ⟨s2, new2, g1, g2, g3, g4⟩ := ih s1 h2 h5
      refine ⟨s2, new1 ++ new2, ?_, ?_, ?_, ?_⟩
      · simp only [Sched.exec, h1, g1]
      · rw [g2, h3, List.append_assoc]
      · intro e he
        rcases List.mem_append.1 he with he | he
        · exact hk e he
        · exact g3 e he
      · exact (precededBy_append _ _ _ _).2 ⟨h4, Or.inr g4⟩

/-- C7, counterexample -- registrations `r1 = (due 100, interval 5, count 2,
callback 1)` and `r2 = (due 110, interval 50, count 1, callback 2)` are made on
a fresh timer.  In the first scan `r1` is invoked at clock value 100 and goes
back into the queue with due time 105; the scan goes on with the queue holding
the registration due at 105 and the multimap holding the one due at 110, and
invokes callback 2 at clock value 120.  Callback 1 of the registration due at
105 is invoked only in the next iteration, after the one due at 110. -/
theorem rearmed_fires_after_later_due :
    fireEntry 100 (SafeQueue.new 1024) 100 ⟨100, 5, 2, 1⟩ =
      (⟨[⟨105, 5, 1, 1⟩], 1, 1024⟩,
       { now := 100, key := 100, item := ⟨100, 5, 2, 1⟩, rearm := some true }) ∧
    fireLoop (fun j => if j = 0 then 100 else 120) 1 ⟨[⟨105, 5, 1, 1⟩], 1, 1024⟩
        [(110, ⟨110, 50, 1, 2⟩)] =
      (⟨[⟨105, 5, 1, 1⟩], 1, 1024⟩, [],
       [{ now := 120, key := 110, item := ⟨110, 50, 1, 2⟩, rearm := none }]) ∧
    ((Sched.fresh 10).exec
        [Event.timerEvent 60 1 50 2, Event.timerEvent 95 2 5 1,
         Event.poll (fun j => if j = 0 then 100 else 120),
         Event.poll (fun _ => 130)]).map (fun s => s.log.map (fun e => (e.item.func_, e.key))) =
      some [(1, 100), (2, 110), (1, 105)] := by
  refine ⟨by decide, by decide, by decide⟩

/-- C7, amended -- for any two registrations held by a timer (in the queue or
the multimap) when a poll iteration or a `timerEvent` call is about to start,
with `dueAt1 < dueAt2`, and for every run of `timerEvent` calls and poll
iterations from there, whatever the clock does: every invocation made for the
registration with `dueAt2` comes after an invocation made for the registration
with `dueAt1`. -/
theorem fires_in_due_order (s : Sched) (r1 r2 : TimerItem) (evs : List Event)
    (hwf : s.timer.WF) (h1 : r1 ∈ s.timer.registrations) (_h2 : r2 ∈ s.timer.registrations)
    (hlt : r1.timePoint_ < r2.timePoint_) :
    ∃ s1 new, s.exec evs = some s1 ∧ s1.log = s.log ++ new ∧
      ∀ pre e2 post, new = pre ++ e2 :: post → e2.item = r2 → ∃ e1 ∈ pre, e1.item = r1 := by
  obtain ⟨s1, new, g1, g2, g3, g4⟩ := exec_due_order r1 evs s hwf h1
  refine ⟨s1, new, g1, g2, ?_⟩
  intro pre e2 post hsplit he2
  have hkey : e2.key = r2.timePoint_ := by
    rw [← he2]
    exact g3 e2 (by rw [hsplit]; simp)
  rw [hsplit] at g4
  refine precededBy_split r1 r1.timePoint_ pre post e2 g4 (by omega) ?_
  intro h
  rw [he2] at h
  rw [h] at hlt
  exact absurd hlt (Nat.lt_irrefl _)

/-- Witness for C7: the queue holds a registration due at 200 (callback 2) in
front of one due at 100 (callback 1); one poll iteration at clock value 300
invokes callback 1 first. -/
theorem fires_in_due_order_witness :
    ∃ s1 new,
      Sched.exec
          { timer := { interval_ := 10,
                       safeQueue_ := ⟨[⟨200, 10, 1, 2⟩, ⟨100, 10, 1, 1⟩], 2, 1024⟩,
                       multimapTimer_ := [] },
            log := [] }
          [Event.poll (fun _ => 300)] = some s1 ∧
      s1.log = [] ++ new ∧
      ∀ pre e2 post, new = pre ++ e2 :: post → e2.item = ⟨200, 10, 1, 2⟩ →
        ∃ e1 ∈ pre, e1.item = ⟨100, 10, 1, 1⟩ :=
  fires_in_due_order
    { timer := { interval_ := 10,
                 safeQueue_ := ⟨[⟨200, 10, 1, 2⟩, ⟨100, 10, 1, 1⟩], 2, 1024⟩,
                 multimapTimer_ := [] },
      log := [] }
    ⟨100, 10, 1, 1⟩ ⟨200, 10, 1, 2⟩ [Event.poll (fun _ => 300)]
    ⟨by simp [SafeQueue.Consistent], by simp, by simp [Ascending]⟩
    (by simp [Timer.registrations]) (by simp [Timer.registrations]) (by decide)

/-! ### A positive count is used up exactly -/

theorem requeued_filter (f : Nat) (log : List Fired) :
    (requeued log).filter (fun x => x.func_ = f) =
      requeued (log.filter (fun e => e.item.func_ = f)) := by
  induction log with
  | nil => simp [requeued]
  | cons e es ih =>
    have hfun : e.rearmed.func_ = e.item.func_ := by
      unfold Fired.rearmed TimerItem.countDown
      split <;> rfl
    by_cases hr : e.rearm = some true <;> by_cases hf : e.item.func_ = f <;>
      simp [requeued, hr, hf, hfun, List.filter_cons, ih]

theorem ascending_head_le (x e : Nat × TimerItem) (rest : List (Nat × TimerItem))
    (h : Ascending (x :: rest)) (he : e ∈ x :: rest) : x.1 ≤ e.1 := by
  unfold Ascending at h
  rw [List.pairwise_cons] at h
  rcases List.mem_cons.1 he with rfl | he
  · exact Nat.le_refl _
  · exact h.1 e he

theorem pollIteration_held (f : Nat) (clock : Nat → Nat) (t : Timer) (h : t.WF) :
    ∃ t1 log, t.pollIteration clock = some (t1, log) ∧ t1.WF ∧
      ((log.filter (fun e => e.item.func_ = f)).map Fired.item ++
          (t1.multimapTimer_.map Prod.snd).filter (fun x => x.func_ = f)).Perm (t.held f) ∧
      t1.held f = requeued (log.filter (fun e => e.item.func_ = f)) ++
          (t1.multimapTimer_.map Prod.snd).filter (fun x => x.func_ = f) ∧
      (∀ e ∈ log, e.rearm = none ↔ e.item.countDown.execCount_ = 0) ∧
      (∀ r ∈ t1.multimapTimer_.map Prod.snd, ∃ k, clock k < r.timePoint_) := by
  obtain ⟨t1, log, h1, h2, h3, -, h5, -, -, h8, h9⟩ := pollIteration_spec clock t h
  have hperm := (insertAll_snd_perm t.safeQueue_.queue_ t.multimapTimer_).filter
    (fun x => x.func_ = f)
  refine ⟨t1, log, h1, h2, ?_, ?_, fun e he => (h8 e he).2.2, ?_⟩
  · rw [h3] at hperm
    simp only [List.map_append, List.map_map, List.filter_append] at hperm
    have hm : List.filter (fun x => decide (x.func_ = f)) (List.map (Prod.snd ∘ Fired.entry) log) =
        (log.filter (fun e => e.item.func_ = f)).map Fired.item := by
      rw [List.filter_map]
      rfl
    rw [hm] at hperm
    unfold Timer.held Timer.registrations
    rw [List.filter_append]
    exact hperm
  · unfold Timer.held Timer.registrations
    rw [h5, List.filter_append, requeued_filter]
  · intro r hr
    obtain ⟨e, he, rfl⟩ := List.mem_map.1 hr
    cases hidx : t1.multimapTimer_ with
    | nil => rw [hidx] at he; exact absurd he (List.not_mem_nil _)
    | cons x rest =>
      rw [hidx] at he h9
      obtain ⟨k, hk⟩ := h9 x (by simp)
      have hle := ascending_head_le x e rest (hidx ▸ h2.2.2) he
      have hkey := h2.2.1 e (hidx ▸ he)
      exact ⟨k, by omega⟩

theorem timerEvent_held (f : Nat) (t : Timer) (now : Nat) (c : Int) (i g : Nat) (hg : g ≠ f) :
    (t.timerEvent now c i g).held f = t.held f := by
  unfold Timer.held Timer.registrations
  by_cases h : t.safeQueue_.queue_size_ < t.safeQueue_.size_limit_
  · simp [Timer.timerEvent, pushNoCondition_eq_of_lt _ _ h, List.filter_append, TimerItem.new, hg]
  · simp [Timer.timerEvent, pushNoCondition_eq_of_not_lt _ _ h]

theorem timesFired_append (f : Nat) (l1 l2 : List Fired) :
    timesFired f (l1 ++ l2) = timesFired f l1 + timesFired f l2 := by
  simp [timesFired, List.countP_append]

theorem step_counting (f : Nat) (n : Int) (ev : Event) (s : Sched) (hinv : Counting f n s)
    (hev : ∀ now c i, ev ≠ Event.timerEvent now c i f) :
    ∃ s1 new, s.step ev = some s1 ∧ s1.log = s.log ++ new ∧
      ((∀ e ∈ new, e.item.func_ = f → e.rearm ≠ some false) →
        Counting f n s1 ∧
        (s.timer.held f = [] → s1.timer.held f = [] ∧ timesFired f new = 0) ∧
        (∀ r, s.timer.held f = [r] →
          (s1.timer.held f = [r] ∧ timesFired f new = 0 ∧
            (∀ clock, ev = Event.poll clock → ∃ k, clock k < r.timePoint_)) ∨
          timesFired f new = 1)) := by
  obtain ⟨hwf, hcount⟩ := hinv
  cases ev with
  | timerEvent now c i g =>
    have hg : g ≠ f := by
      intro h
      exact hev now c i (by rw [h])
    have hheld := timerEvent_held f s.timer now c i g hg
    refine ⟨{ s with timer := s.timer.timerEvent now c i g }, [], rfl, by simp, ?_⟩
    intro _
    refine ⟨⟨timerEvent_WF _ _ _ _ _ hwf, ?_⟩, ?_, ?_⟩
    · simpa only [hheld] using hcount
    · intro h0
      exact ⟨by simpa only [hheld] using h0, rfl⟩
    · intro r hr
      exact Or.inl ⟨by simpa only [hheld] using hr, rfl, fun clock hc => by cases hc⟩
  | poll clock =>
    obtain ⟨t1, log, h1, h2, h3, h4, h5, h6⟩ := pollIteration_held f clock s.timer hwf
    refine ⟨{ timer := t1, log := s.log ++ log }, log, ?_, rfl, ?_⟩
    · simp only [Sched.step, h1]
    intro hnodrop
    have hnew : timesFired f log = (log.filter (fun e => e.item.func_ = f)).length := by
      simp [timesFired, List.countP_eq_length_filter]
    have hlog : timesFired f (s.log ++ log) =
        timesFired f s.log + (log.filter (fun e => e.item.func_ = f)).length := by
      rw [timesFired_append, hnew]
    rcases hcount with ⟨hnil, hn⟩ | ⟨r, hr, hpos, hn⟩
    · rw [hnil] at h3
      have h3 := List.append_eq_nil.1 h3.eq_nil
      have hL : log.filter (fun e => e.item.func_ = f) = [] := List.map_eq_nil_iff.1 h3.1
      have hheld1 : t1.held f = [] := by rw [h4, hL, h3.2]; rfl
      refine ⟨⟨h2, Or.inl ⟨hheld1, ?_⟩⟩, ?_, ?_⟩
      · simp only [hlog, hL, List.length_nil, Nat.add_zero]
        exact hn
      · intro _
        exact ⟨hheld1, by rw [hnew, hL]; rfl⟩
      · intro r hr
        rw [hnil] at hr
        cases hr
    · rw [hr] at h3
      have h3 := List.perm_singleton.1 h3
      cases hL : log.filter (fun e => e.item.func_ = f) with
      | nil =>
        rw [hL] at h3 h4
        simp only [List.map_nil, List.nil_append] at h3
        have hheld1 : t1.held f = [r] := by rw [h4, h3]; rfl
        have hlate : ∃ k, clock k < r.timePoint_ := by
          apply h6 r
          have : r ∈ (t1.multimapTimer_.map Prod.snd).filter (fun x => x.func_ = f) := by
            rw [h3]; exact List.mem_singleton_self r
          exact (List.mem_filter.1 this).1
        refine ⟨⟨h2, Or.inr ⟨r, hheld1, hpos, ?_⟩⟩, ?_, ?_⟩
        · simp only [hlog, hL, List.length_nil, Nat.add_zero]
          exact hn
        · intro h0
          rw [hr] at h0
          cases h0
        · intro r1 hr1
          rw [hr] at hr1
          cases hr1
          exact Or.inl ⟨hheld1, by rw [hnew, hL]; rfl, fun c hc => by cases hc; exact hlate⟩
      | cons e rest =>
        rw [hL] at h3 h4
        simp only [List.map_cons, List.cons_append, List.cons.injEq, List.append_eq_nil,
          List.map_eq_nil_iff] at h3
        obtain ⟨he, hrest, hI⟩ := h3
        subst hrest
        have hemem : e ∈ log ∧ e.item.func_ = f := by
          have : e ∈ log.filter (fun e => e.item.func_ = f) := by
            rw [hL]; exact List.mem_singleton_self e
          simpa using List.mem_filter.1 this
        have hdrop := hnodrop e hemem.1 hemem.2
        have hnone := h5 e hemem.1
        have hcd : e.item.countDown.execCount_ = r.execCount_ - 1 := by
          rw [he]
          simp [TimerItem.countDown, hpos]
        have hone : timesFired f log = 1 := by rw [hnew, hL]; rfl
        refine ⟨⟨h2, ?_⟩, ?_, ?_⟩
        · by_cases h1r : r.execCount_ = 1
          · left
            have : e.rearm = none := hnone.2 (by rw [hcd, h1r]; rfl)
            refine ⟨?_, ?_⟩
            · rw [h4, hI]
              simp [requeued, this]
            · simp only [hlog, hL, List.length_singleton]
              push_cast
              omega
          · right
            have hsome : e.rearm = some true := by
              cases hre : e.rearm with
              | none =>
                have := hnone.1 hre
                omega
              | some b =>
                cases b with
                | true => rfl
                | false => exact absurd hre hdrop
            refine ⟨e.rearmed, ?_, ?_, ?_⟩
            · rw [h4, hI]
              simp [requeued, hsome]
            · show 0 < e.item.countDown.execCount_
              omega
            · show e.item.countDown.execCount_ + (timesFired f (s.log ++ log) : Int) = n
              simp only [hlog, hL, List.length_singleton]
              push_cast
              omega
        · intro h0
          rw [hr] at h0
          cases h0
        · intro r1 _
          exact Or.inr hone

theorem exec_firstEvents_succ (s0 s s1 : Sched) (run : Nat → Event) (m : Nat)
    (hs : s0.exec (firstEvents run m) = some s) (hstep : s.step (run m) = some s1) :
    s0.exec (firstEvents run (m + 1)) = some s1 := by
  rw [firstEvents_succ, exec_append, hs]
  simp only [Sched.exec, hstep]

theorem counting_bound (f : Nat) (n : Int) (s : Sched) (h : Counting f n s) :
    (timesFired f s.log : Int) ≤ n ∧
      ((timesFired f s.log : Int) = n → ∀ x ∈ s.timer.registrations, x.func_ ≠ f) := by
  rcases h.2 with ⟨h0, hn⟩ | ⟨r, _, hpos, hn⟩
  · refine ⟨by omega, fun _ x hx hf => ?_⟩
    have : x ∈ s.timer.held f := List.mem_filter.2 ⟨hx, by simpa using hf⟩
    rw [h0] at this
    exact absurd this (List.not_mem_nil _)
  · exact ⟨by omega, fun h => by omega⟩

theorem run_next (f : Nat) (n : Int) (s0 : Sched) (run : Nat → Event)
    (hrun : ∀ k now c i, run k ≠ Event.timerEvent now c i f)
    (hnodrop : ∀ m s, s0.exec (firstEvents run m) = some s →
      ∀ e ∈ s.log, e.item.func_ = f → e.rearm ≠ some false)
    (m : Nat) (s : Sched) (hs : s0.exec (firstEvents run m) = some s) (hinv : Counting f n s) :
    ∃ s1 new, s0.exec (firstEvents run (m + 1)) = some s1 ∧ s1.log = s.log ++ new ∧
      Counting f n s1 ∧
      (s.timer.held f = [] → s1.timer.held f = [] ∧ timesFired f new = 0) ∧
      (∀ r, s.timer.held f = [r] →
        (s1.timer.held f = [r] ∧ timesFired f new = 0 ∧
          (∀ clock, run m = Event.poll clock → ∃ k, clock k < r.timePoint_)) ∨
        timesFired f new = 1) := by
  obtain ⟨s1, new, h1, h2, h3⟩ := step_counting f n (run m) s hinv (hrun m)
  have hnext := exec_firstEvents_succ s0 s s1 run m hs h1
  have hnd : ∀ e ∈ new, e.item.func_ = f → e.rearm ≠ some false := by
    intro e he
    exact hnodrop (m + 1) s1 hnext e (by rw [h2]; exact List.mem_append_right _ he)
  obtain ⟨g1, g2, g3⟩ := h3 hnd
  exact ⟨s1, new, hnext, h2, g1, g2, g3⟩

theorem run_done_stable (f : Nat) (n : Int) (s0 : Sched) (run : Nat → Event)
    (hrun : ∀ k now c i, run k ≠ Event.timerEvent now c i f)
    (hnodrop : ∀ m s, s0.exec (firstEvents run m) = some s →
      ∀ e ∈ s.log, e.item.func_ = f → e.rearm ≠ some false)
    (m : Nat) (s : Sched) (hs : s0.exec (firstEvents run m) = some s) (hinv : Counting f n s)
    (hdone : s.timer.held f = []) :
    ∀ d, ∃ s1, s0.exec (firstEvents run (m + d)) = some s1 ∧ Counting f n s1 ∧
      s1.timer.held f = [] ∧ timesFired f s1.log = timesFired f s.log := by
  intro d
  induction d with
  | zero => exact ⟨s, hs, hinv, hdone, rfl⟩
  | succ d ih =>
    obtain ⟨s1, h1, h2, h3, h4⟩ := ih
    obtain ⟨s2, new, g1, g2, g3, g4, -⟩ := run_next f n s0 run hrun hnodrop (m + d) s1 h1 h2
    obtain ⟨k1, k2⟩ := g4 h3
    refine ⟨s2, g1, g3, k1, ?_⟩
    rw [g2, timesFired_append, k2, h4]
    rfl

theorem run_progress (f : Nat) (n : Int) (s0 : Sched) (run : Nat → Event)
    (hrun : ∀ k now c i, run k ≠ Event.timerEvent now c i f)
    (hclock : ∀ T k, ∃ k1, k ≤ k1 ∧ ∃ clock, run k1 = Event.poll clock ∧ ∀ j, T ≤ clock j)
    (hnodrop : ∀ m s, s0.exec (firstEvents run m) = some s →
      ∀ e ∈ s.log, e.item.func_ = f → e.rearm ≠ some false)
    (m : Nat) (s : Sched) (hs : s0.exec (firstEvents run m) = some s) (hinv : Counting f n s)
    (r : TimerItem) (hr : s.timer.held f = [r]) :
    ∃ m1 s1, s0.exec (firstEvents run m1) = some s1 ∧ Counting f n s1 ∧
      timesFired f s1.log = timesFired f s.log + 1 := by
  obtain ⟨k1, hk1, clock, hpoll, hlate⟩ := hclock r.timePoint_ m
  have hstay : ∀ d, m + d ≤ k1 →
      (∃ s2, s0.exec (firstEvents run (m + d)) = some s2 ∧ Counting f n s2 ∧
        s2.timer.held f = [r] ∧ timesFired f s2.log = timesFired f s.log) ∨
      (∃ m1 s1, s0.exec (firstEvents run m1) = some s1 ∧ Counting f n s1 ∧
        timesFired f s1.log = timesFired f s.log + 1) := by
    intro d
    induction d with
    | zero => intro _; exact Or.inl ⟨s, hs, hinv, hr, rfl⟩
    | succ d ih =>
      intro hd
      rcases ih (by omega) with ⟨s2, h1, h2, h3, h4⟩ | hdone
      · obtain ⟨s3, new, g1, g2, g3, -, g5⟩ :=
          run_next f n s0 run hrun hnodrop (m + d) s2 h1 h2
        rcases g5 r h3 with ⟨k2, k3, -⟩ | k2
        · left
          refine ⟨s3, g1, g3, k2, ?_⟩
          rw [g2, timesFired_append, k3, h4]
          rfl
        · right
          refine ⟨m + d + 1, s3, g1, g3, ?_⟩
          rw [g2, timesFired_append, k2, h4]
      · exact Or.inr hdone
  rcases hstay (k1 - m) (by omega) with ⟨s2, h1, h2, h3, h4⟩ | hdone
  · have hk : m + (k1 - m) = k1 := by omega
    rw [hk] at h1
    obtain ⟨s3, new, g1, g2, g3, -, g5⟩ := run_next f n s0 run hrun hnodrop k1 s2 h1 h2
    rcases g5 r h3 with ⟨-, -, k4⟩ | k2
    · obtain ⟨j, hj⟩ := k4 clock hpoll
      have := hlate j
      omega
    · refine ⟨k1 + 1, s3, g1, g3, ?_⟩
      rw [g2, timesFired_append, k2, h4]
  · exact hdone

theorem run_eventually_done (f : Nat) (n : Int) (s0 : Sched) (run : Nat → Event)
    (hrun : ∀ k now c i, run k ≠ Event.timerEvent now c i f)
    (hclock : ∀ T k, ∃ k1, k ≤ k1 ∧ ∃ clock, run k1 = Event.poll clock ∧ ∀ j, T ≤ clock j)
    (hnodrop : ∀ m s, s0.exec (firstEvents run m) = some s →
      ∀ e ∈ s.log, e.item.func_ = f → e.rearm ≠ some false) :
    ∀ (d : Nat) (m : Nat) (s : Sched), s0.exec (firstEvents run m) = some s → Counting f n s →
      n - (timesFired f s.log : Int) = d →
      ∃ N, ∀ m1, N ≤ m1 → ∃ s1, s0.exec (firstEvents run m1) = some s1 ∧
        (timesFired f s1.log : Int) = n ∧ ∀ x ∈ s1.timer.registrations, x.func_ ≠ f := by
  intro d
  induction d with
  | zero =>
    intro m s hs hinv hd
    have hheld : s.timer.held f = [] := by
      rcases hinv.2 with ⟨h0, _⟩ | ⟨r, _, hpos, hn⟩
      · exact h0
      · simp only [Nat.cast_zero] at hd; omega
    refine ⟨m, fun m1 hm1 => ?_⟩
    obtain ⟨s1, h1, h2, -, h4⟩ := run_done_stable f n s0 run hrun hnodrop m s hs hinv hheld (m1 - m)
    have hk : m + (m1 - m) = m1 := by omega
    rw [hk] at h1
    have hcount : (timesFired f s1.log : Int) = n := by
      rw [h4]; simp only [Nat.cast_zero] at hd; omega
    exact ⟨s1, h1, hcount, (counting_bound f n s1 h2).2 hcount⟩
  | succ d ih =>
    intro m s hs hinv hd
    rcases hinv.2 with ⟨_, hn⟩ | ⟨r, hr, _, _⟩
    · push_cast at hd; omega
    · obtain ⟨m1, s1, h1, h2, h3⟩ :=
        run_progress f n s0 run hrun hclock hnodrop m s hs hinv r hr
      exact ih m1 s1 h1 h2 (by rw [h3]; push_cast at hd ⊢; omega)

theorem timerEvent_counting (t : Timer) (now : Nat) (n : Int) (interval f : Nat) (hn : 0 < n)
    (hwf : t.WF) (hroom : t.safeQueue_.queue_size_ < t.safeQueue_.size_limit_)
    (hnew : ∀ x ∈ t.registrations, x.func_ ≠ f) :
    Counting f n { timer := t.timerEvent now n interval f, log := [] } := by
  refine ⟨timerEvent_WF _ _ _ _ _ hwf, Or.inr ⟨TimerItem.new now n interval f, ?_, hn, ?_⟩⟩
  · have h1 : t.safeQueue_.queue_.filter (fun x => x.func_ = f) = [] := by
      rw [List.filter_eq_nil_iff]
      intro x hx
      simpa using hnew x (List.mem_append_left _ hx)
    have h2 : (t.multimapTimer_.map Prod.snd).filter (fun x => x.func_ = f) = [] := by
      rw [List.filter_eq_nil_iff]
      intro x hx
      simpa using hnew x (List.mem_append_right _ hx)
    unfold Timer.held Timer.registrations
    simp only [Timer.timerEvent, pushNoCondition_eq_of_lt _ _ hroom, List.filter_append, h1, h2]
    simp [TimerItem.new]
  · simp [TimerItem.new, timesFired]

/-- C5 -- a callback `f` registered by `timerEvent` with a count `n > 0` into a
queue with room, on a timer holding no other registration for `f`, over an
unending run of poll iterations and `timerEvent` calls for other callbacks in
which, for every time `T`, some later poll iteration reads only clock values
`>= T` (the clock keeps advancing) and no re-arming push for `f` is refused
(the queue is never full when it is re-armed): after any number of events `f`
has been invoked at most `n` times, and once it has been invoked `n` times no
registration for `f` is left in the queue or the multimap; and from some point
of the run on `f` has been invoked exactly `n` times, so it is never invoked
again. -/
theorem fires_exactly_n_times (t : Timer) (now : Nat) (n : Int) (interval f : Nat)
    (run : Nat → Event) (hn : 0 < n) (hwf : t.WF)
    (hroom : t.safeQueue_.queue_size_ < t.safeQueue_.size_limit_)
    (hnew : ∀ x ∈ t.registrations, x.func_ ≠ f)
    (hrun : ∀ k now1 c i, run k ≠ Event.timerEvent now1 c i f)
    (hclock : ∀ T k, ∃ k1, k ≤ k1 ∧ ∃ clock, run k1 = Event.poll clock ∧ ∀ j, T ≤ clock j)
    (hnodrop : ∀ m s,
      Sched.exec { timer := t.timerEvent now n interval f, log := [] } (firstEvents run m) =
        some s →
      ∀ e ∈ s.log, e.item.func_ = f → e.rearm ≠ some false) :
    (∀ m, ∃ s,
      Sched.exec { timer := t.timerEvent now n interval f, log := [] } (firstEvents run m) =
        some s ∧
      (timesFired f s.log : Int) ≤ n ∧
      ((timesFired f s.log : Int) = n → ∀ x ∈ s.timer.registrations, x.func_ ≠ f)) ∧
    ∃ N, ∀ m, N ≤ m → ∃ s,
      Sched.exec { timer := t.timerEvent now n interval f, log := [] } (firstEvents run m) =
        some s ∧
      (timesFired f s.log : Int) = n ∧ ∀ x ∈ s.timer.registrations, x.func_ ≠ f := by
  have h0 := timerEvent_counting t now n interval f hn hwf hroom hnew
  have hall : ∀ m, ∃ s,
      Sched.exec { timer := t.timerEvent now n interval f, log := [] } (firstEvents run m) =
        some s ∧ Counting f n s := by
    intro m
    induction m with
    | zero => exact ⟨_, rfl, h0⟩
    | succ m ih =>
      obtain ⟨s, h1, h2⟩ := ih
      obtain ⟨s1, _, g1, -, g3, -, -⟩ := run_next f n _ run hrun hnodrop m s h1 h2
      exact ⟨s1, g1, g3⟩
  constructor
  · intro m
    obtain ⟨s, h1, h2⟩ := hall m
    exact ⟨s, h1, counting_bound f n s h2⟩
  · exact run_eventually_done f n _ run hrun hclock hnodrop (n - 0).toNat 0 _ rfl h0
      (by simp [timesFired]; omega)

/-- A run in which poll iteration number `k` reads the clock value
`10 + 10 * k` for every entry, after `timerEvent(2, 5, f)` with `f = 7` on a
fresh timer: from the second iteration on the timer is empty and callback 7
has been invoked twice. -/
theorem witness_run_state (m : Nat) :
    Sched.exec { timer := (Timer.new 10).timerEvent 0 2 5 7, log := [] }
        (firstEvents (fun k => Event.poll (fun _ => 10 + 10 * k)) (m + 2)) =
      some { timer := Timer.new 10,
             log := [{ now := 10, key := 5, item := ⟨5, 5, 2, 7⟩, rearm := some true },
                     { now := 20, key := 15, item := ⟨15, 5, 1, 7⟩, rearm := none }] } := by
  induction m with
  | zero => decide
  | succ m ih => exact exec_firstEvents_succ _ _ _ _ (m + 2) ih rfl

/-- Witness for C5: `timerEvent(2, 5, f)` with `f = 7` at clock value 0 on a
fresh timer, then poll iterations reading the clock values 10, 20, 30, ... -/
theorem fires_exactly_n_times_witness :
    (∀ m, ∃ s,
      Sched.exec { timer := (Timer.new 10).timerEvent 0 2 5 7, log := [] }
        (firstEvents (fun k => Event.poll (fun _ => 10 + 10 * k)) m) = some s ∧
      (timesFired 7 s.log : Int) ≤ 2 ∧
      ((timesFired 7 s.log : Int) = 2 → ∀ x ∈ s.timer.registrations, x.func_ ≠ 7)) ∧
    ∃ N, ∀ m, N ≤ m → ∃ s,
      Sched.exec { timer := (Timer.new 10).timerEvent 0 2 5 7, log := [] }
        (firstEvents (fun k => Event.poll (fun _ => 10 + 10 * k)) m) = some s ∧
      (timesFired 7 s.log : Int) = 2 ∧ ∀ x ∈ s.timer.registrations, x.func_ ≠ 7 :=
  fires_exactly_n_times (Timer.new 10) 0 2 5 7 (fun k => Event.poll (fun _ => 10 + 10 * k))
    (by decide) (fresh_WF 10) (by decide)
    (by simp [Timer.new, Timer.registrations, SafeQueue.new])
    (by intro k now1 c i h; cases h)
    (by
      intro T k
      exact ⟨k + T, by omega, fun _ => 10 + 10 * (k + T), rfl,
        fun _ => by show T ≤ 10 + 10 * (k + T); omega⟩)
    (by
      intro m s hs e he _
      cases m with
      | zero =>
        cases hs
        exact absurd he (List.not_mem_nil _)
      | succ m =>
        cases m with
        | zero =>
          have h1 : Sched.exec { timer := (Timer.new 10).timerEvent 0 2 5 7, log := [] }
              (firstEvents (fun k => Event.poll (fun _ => 10 + 10 * k)) 1) =
              some { timer := { interval_ := 10, safeQueue_ := ⟨[⟨15, 5, 1, 7⟩], 1, 1024⟩,
                                multimapTimer_ := [] },
                     log := [{ now := 10, key := 5, item := ⟨5, 5, 2, 7⟩,
                               rearm := some true }] } := by
            decide
          rw [h1] at hs
          cases hs
          rw [List.mem_singleton] at he
          rw [he]
          decide
        | succ m =>
          rw [witness_run_state m] at hs
          cases hs
          simp only [List.mem_cons, List.mem_singleton, List.not_mem_nil, or_false] at he
          rcases he with he | he <;> rw [he] <;> decide)

/-! ### Due times -/

theorem exec_origin (evs : List Event) :
    ∀ s : Sched, s.timer.WF →
      ∃ s1 new, s.exec evs = some s1 ∧ s1.log = s.log ++ new ∧
        (∀ x ∈ s1.timer.registrations, Origin s.timer.registrations evs new x) ∧
        (∀ e ∈ new, Origin s.timer.registrations evs new e.item) := by
  induction evs with
  | nil =>
    intro s _
    exact ⟨s, [], rfl, by simp, fun x hx => Or.inl hx, by simp⟩
  | cons ev evs ih =>
    intro s hwf
    cases ev with
    | timerEvent now c i f =>
      obtain ⟨s2, new2, g1, g2, g3, g4⟩ :=
        ih { s with timer := s.timer.timerEvent now c i f } (timerEvent_WF _ _ _ _ _ hwf)
      have hconv : ∀ x, Origin (s.timer.timerEvent now c i f).registrations evs new2 x →
          Origin s.timer.registrations (Event.timerEvent now c i f :: evs) new2 x := by
        intro x hx
        rcases hx with hx | ⟨now1, c1, i1, f1, hm, hx⟩ | hx
        · rcases timerEvent_registrations _ _ _ _ _ x hx with hx | hx
          · exact Or.inr (Or.inl ⟨now, c, i, f, List.mem_cons_self _ _, hx⟩)
          · exact Or.inl hx
        · exact Or.inr (Or.inl ⟨now1, c1, i1, f1, List.mem_cons_of_mem _ hm, hx⟩)
        · exact Or.inr (Or.inr hx)
      refine ⟨s2, new2, ?_, g2, fun x hx => hconv x (g3 x hx), fun e he => hconv _ (g4 e he)⟩
      simp only [Sched.exec, Sched.step, g1]
    | poll clock =>
      obtain ⟨t1, log, h1, h2, h3, h4⟩ := pollIteration_registrations clock s.timer hwf
      obtain ⟨s2, new2, g1, g2, g3, g4⟩ := ih { timer := t1, log := s.log ++ log } h2
      have hconv : ∀ x, Origin t1.registrations evs new2 x →
          Origin s.timer.registrations (Event.poll clock :: evs) (log ++ new2) x := by
        intro x hx
        rcases hx with hx | ⟨now1, c1, i1, f1, hm, hx⟩ | ⟨e, he, hr, hx⟩
        · rcases h4 x hx with ⟨e, he, hr, hx⟩ | hx
          · exact Or.inr (Or.inr ⟨e, List.mem_append_left _ he, hr, hx⟩)
          · exact Or.inl hx
        · exact Or.inr (Or.inl ⟨now1, c1, i1, f1, List.mem_cons_of_mem _ hm, hx⟩)
        · exact Or.inr (Or.inr ⟨e, List.mem_append_right _ he, hr, hx⟩)
      refine ⟨s2, log ++ new2, ?_, ?_, fun x hx => hconv x (g3 x hx), ?_⟩
      · simp only [Sched.exec, Sched.step, h1, g1]
      · rw [g2, List.append_assoc]
      · intro e he
        rcases List.mem_append.1 he with he | he
        · exact Or.inl (h3 e he).1
        · exact hconv _ (g4 e he)

theorem rearmed_timePoint (e : Fired) : e.rearmed.timePoint_ = e.now + e.item.interval_ := by
  unfold Fired.rearmed TimerItem.countDown
  split <;> rfl

/-- C8 -- no callback is invoked before its due time.  In one scan of the
multimap from any timer state, and over any run of `timerEvent` calls and poll
iterations of a fresh timer (which never reaches an undefined state), every
invocation was made for a multimap entry whose key is at most the clock value
read for it.  Over such a run the key is the `timePoint_` of the registration,
and that is the value `now + interval` computed by a `timerEvent` call of the
run or by the re-arming after an invocation of the run. -/
theorem no_fire_before_due (t : Timer) (clock : Nat → Nat) (interval : Int)
    (evs : List Event) :
    (∀ e ∈ (t.fire clock).2, e.key ≤ e.now) ∧
    ∃ s, (Sched.fresh interval).exec evs = some s ∧
      ∀ e ∈ s.log, e.key ≤ e.now ∧ e.key = e.item.timePoint_ ∧
        ((∃ now c i f, Event.timerEvent now c i f ∈ evs ∧
            e.item = TimerItem.new now c i f ∧ e.key = now + i) ∨
          (∃ e0 ∈ s.log, e0.rearm = some true ∧ e.item = e0.rearmed ∧
            e.key = e0.now + e0.item.interval_)) := by
  have hf := (fireLoop_spec clock t.multimapTimer_ 0 t.safeQueue_).2.2.2.2.1
  refine ⟨fun e he => (hf e he).1, ?_⟩
  obtain ⟨s, new, h1, -, h3, h4⟩ := exec_spec evs (Sched.fresh interval) (fresh_WF interval)
  obtain ⟨s1, new1, g1, g2, -, g4⟩ := exec_origin evs (Sched.fresh interval) (fresh_WF interval)
  rw [h1] at g1
  cases g1
  have hnew : new1 = new := List.append_cancel_left (g2.symm.trans h3)
  subst hnew
  have hlog : s.log = new1 := by rw [h3]; rfl
  refine ⟨s, h1, ?_⟩
  intro e he
  rw [hlog] at he ⊢
  obtain ⟨k1, k2⟩ := h4 e he
  refine ⟨k1, k2, ?_⟩
  rcases g4 e he with hx | ⟨now, c, i, f, hm, hx⟩ | ⟨e0, he0, hr, hx⟩
  · simp [Sched.fresh, Timer.new, Timer.registrations, SafeQueue.new] at hx
  · exact Or.inl ⟨now, c, i, f, hm, hx, by rw [k2, hx]; rfl⟩
  · exact Or.inr ⟨e0, he0, hr, hx, by rw [k2, hx, rearmed_timePoint]⟩

/-! ### The three push variants and the size counter -/

/-- C18 -- `push`, `pushNoCondition` and `emplace` agree on every queue state
and value: same returned boolean, same stored elements, same counter (and same
capacity). -/
theorem push_variants_agree {T : Type} (q : SafeQueue T) (value : T) :
    (q.push value).1 = (q.pushNoCondition value).1 ∧
    (q.emplace value).1 = (q.pushNoCondition value).1 ∧
    (q.push value).2.queue_ = (q.pushNoCondition value).2.queue_ ∧
    (q.emplace value).2.queue_ = (q.pushNoCondition value).2.queue_ ∧
    (q.push value).2.queue_size_ = (q.pushNoCondition value).2.queue_size_ ∧
    (q.emplace value).2.queue_size_ = (q.pushNoCondition value).2.queue_size_ ∧
    q.push value = q.pushNoCondition value ∧ q.emplace value = q.pushNoCondition value := by
  unfold SafeQueue.push SafeQueue.emplace SafeQueue.pushNoCondition
  split <;> simp

theorem push_variants_agree_aux {T : Type} (q : SafeQueue T) (value : T) :
    q.push value = q.pushNoCondition value ∧ q.emplace value = q.pushNoCondition value := by
  unfold SafeQueue.push SafeQueue.emplace SafeQueue.pushNoCondition
  split <;> simp

theorem calls_invariant {T : Type} (ops : List (QueueOp T)) :
    ∀ q : SafeQueue T, q.Consistent → q.queue_size_ ≤ max q.size_limit_ 0 →
      ∃ q1, q.calls ops = some q1 ∧ q1.Consistent ∧ q1.queue_size_ ≤ max q1.size_limit_ 0 ∧
        q1.size_limit_ = q.size_limit_ := by
  induction ops with
  | nil => intro q h1 h2; exact ⟨q, rfl, h1, h2, rfl⟩
  | cons op ops ih =>
    intro q h1 h2
    have hpush : ∀ v : T, (q.pushNoCondition v).2.Consistent ∧
        (q.pushNoCondition v).2.queue_size_ ≤ max (q.pushNoCondition v).2.size_limit_ 0 ∧
        (q.pushNoCondition v).2.size_limit_ = q.size_limit_ := by
      intro v
      refine ⟨pushNoCondition_consistent q v h1, ?_, pushNoCondition_size_limit q v⟩
      by_cases h : q.queue_size_ < q.size_limit_
      · rw [pushNoCondition_eq_of_lt q v h]
        simp only
        omega
      · rw [pushNoCondition_eq_of_not_lt q v h]
        exact h2
    have hstep : ∃ q1, q.call op = some q1 ∧ q1.Consistent ∧
        q1.queue_size_ ≤ max q1.size_limit_ 0 ∧ q1.size_limit_ = q.size_limit_ := by
      cases op with
      | push v =>
        refine ⟨(q.push v).2, rfl, ?_⟩
        rw [(push_variants_agree_aux q v).1]
        exact hpush v
      | pushNoCondition v => exact ⟨(q.pushNoCondition v).2, rfl, hpush v⟩
      | emplace v =>
        refine ⟨(q.emplace v).2, rfl, ?_⟩
        rw [(push_variants_agree_aux q v).2]
        exact hpush v
      | getNoCondition =>
        obtain ⟨l, n, c⟩ := q
        unfold SafeQueue.Consistent at h1
        simp only at h1 h2
        cases l with
        | nil =>
          simp only [List.length_nil, Nat.cast_zero] at h1
          subst h1
          exact ⟨⟨[], 0, c⟩, by simp [SafeQueue.call, SafeQueue.getNoCondition],
            by simp [SafeQueue.Consistent], h2, rfl⟩
        | cons v rest =>
          simp only [List.length_cons, Nat.cast_add, Nat.cast_one] at h1
          have hn : n ≠ 0 := by omega
          refine ⟨⟨rest, n - 1, c⟩, ?_, ?_, ?_, rfl⟩
          · simp only [SafeQueue.call]
            rw [getNoCondition_of_cons ⟨v :: rest, n, c⟩ v rest hn rfl]
          · unfold SafeQueue.Consistent
            simp only
            omega
          · simp only
            omega
    obtain ⟨q1, g1, g2, g3, g4⟩ := hstep
    obtain ⟨q2, k1, k2, k3, k4⟩ := ih q1 g2 g3
    exact ⟨q2, by simp only [SafeQueue.calls, g1, k1], k2, k3, by rw [k4, g4]⟩

/-- C16 -- size-counter invariant.  For every capacity, every finite sequence
of `push`, `pushNoCondition`, `emplace` and `getNoCondition` calls on a fresh
queue, and every prefix of it (the first `k` calls): the calls are all defined,
and after them the counter equals the number of stored elements, lies between
`0` and `max(capacity, 0)`, and the capacity is unchanged; when the capacity is
`<= 0` the queue is empty and each of the three pushes fails. -/
theorem size_counter_invariant {T : Type} (capacity : Int) (ops : List (QueueOp T)) (k : Nat)
    (value : T) :
    ∃ q, (SafeQueue.new capacity).calls (ops.take k) = some q ∧
      q.queue_size_ = (q.queue_.length : Int) ∧
      0 ≤ q.queue_size_ ∧ q.queue_size_ ≤ max capacity 0 ∧
      q.size_limit_ = capacity ∧
      (capacity ≤ 0 →
        q.queue_ = [] ∧ (q.push value).1 = false ∧ (q.pushNoCondition value).1 = false ∧
          (q.emplace value).1 = false) := by
  obtain ⟨q, h1, h2, h3, h4⟩ := calls_invariant (ops.take k) (SafeQueue.new capacity : SafeQueue T)
    (by simp [SafeQueue.Consistent, SafeQueue.new]) (by simp [SafeQueue.new])
  have hlim : q.size_limit_ = capacity := by rw [h4]; rfl
  rw [hlim] at h3
  unfold SafeQueue.Consistent at h2
  refine ⟨q, h1, h2, by omega, h3, hlim, ?_⟩
  intro hcap
  have h0 : q.queue_size_ = 0 := by omega
  have hfull : ¬ q.queue_size_ < q.size_limit_ := by omega
  have hpush := pushNoCondition_eq_of_not_lt q value hfull
  refine ⟨?_, ?_, ?_, ?_⟩
  · rw [h0] at h2
    exact List.length_eq_zero.1 (by exact_mod_cast h2.symm)
  · rw [(push_variants_agree_aux q value).1, hpush]
  · rw [hpush]
  · rw [(push_variants_agree_aux q value).2, hpush]

/-! ### The drain step -/

theorem drainLoop_short (fuel : Nat) :
    ∀ t : Timer, t.safeQueue_.Consistent → fuel ≤ t.safeQueue_.queue_.length →
      Timer.drainLoop fuel t = none := by
  induction fuel with
  | zero => intro t _ _; rfl
  | succ fuel ih =>
    intro t hq hlen
    obtain ⟨iv, ⟨l, n, c⟩, idx⟩ := t
    unfold SafeQueue.Consistent at hq
    simp only at hq hlen
    cases l with
    | nil => simp at hlen
    | cons v rest =>
      simp only [List.length_cons, Nat.cast_add, Nat.cast_one] at hq
      have hn : n ≠ 0 := by omega
      have hrest : (⟨rest, n - 1, c⟩ : SafeQueue TimerItem).Consistent := by
        unfold SafeQueue.Consistent
        simp only
        omega
      have hl : fuel ≤ rest.length := by simp only [List.length_cons] at hlen; omega
      have := ih ⟨iv, ⟨rest, n - 1, c⟩, multimapInsert v.timePoint_ v idx⟩ hrest hl
      simp only [Timer.drainLoop]
      rw [getNoCondition_of_cons ⟨v :: rest, n, c⟩ v rest hn rfl]
      simp only [this]

/-- C15 -- the drain step on a queue whose counter agrees with its `k` stored
registrations, and any multimap: the loop ends, the `k + 1`-th call of
`getNoCondition` being the first that returns `false` (with fuel for `k` calls
or fewer it has not ended, with more it has); the queue is then empty with
counter 0; the multimap holds the old entries and one entry `(timePoint_, ti)`
for each drained registration `ti`, as a multiset; the values popped are the
stored registrations in order. -/
theorem drain_step (t : Timer) (fuel : Nat) (hq : t.safeQueue_.Consistent) :
    ∃ t1, t.drain = some t1 ∧
      Timer.drainLoop fuel t = (if t.safeQueue_.queue_.length < fuel then some t1 else none) ∧
      SafeQueue.popAll (t.safeQueue_.queue_.length + 1) t.safeQueue_ =
        some (t.safeQueue_.queue_, t1.safeQueue_) ∧
      t1.safeQueue_.queue_ = [] ∧ t1.safeQueue_.queue_size_ = 0 ∧
      t1.safeQueue_.size_limit_ = t.safeQueue_.size_limit_ ∧
      t1.interval_ = t.interval_ ∧
      t1.multimapTimer_.Perm
        (t.safeQueue_.queue_.map (fun ti => (ti.timePoint_, ti)) ++ t.multimapTimer_) ∧
      t1.multimapTimer_.length = t.multimapTimer_.length + t.safeQueue_.queue_.length := by
  refine ⟨_, drain_spec t hq, ?_, ?_, rfl, rfl, rfl, rfl, insertAll_perm _ _, ?_⟩
  · by_cases h : t.safeQueue_.queue_.length < fuel
    · rw [if_pos h, drainLoop_spec fuel t hq h]
    · rw [if_neg h, drainLoop_short fuel t hq (by omega)]
  · rw [popAll_spec _ _ hq (Nat.lt_succ_self _)]
  · rw [(insertAll_perm _ _).length_eq]
    simp only [List.length_append, List.length_map]
    omega

/-- Witness for C15: a queue holding registrations due at 30 and at 10, and a
multimap holding one entry due at 20. -/
theorem drain_step_witness :
    ∃ t1,
      Timer.drain { interval_ := 10, safeQueue_ := ⟨[⟨30, 5, 1, 1⟩, ⟨10, 5, 1, 2⟩], 2, 1024⟩,
                    multimapTimer_ := [(20, ⟨20, 5, 1, 3⟩)] } = some t1 ∧
      Timer.drainLoop 2 { interval_ := 10,
                          safeQueue_ := ⟨[⟨30, 5, 1, 1⟩, ⟨10, 5, 1, 2⟩], 2, 1024⟩,
                          multimapTimer_ := [(20, ⟨20, 5, 1, 3⟩)] } = none ∧
      t1.safeQueue_ = ⟨[], 0, 1024⟩ ∧
      t1.multimapTimer_ = [(10, ⟨10, 5, 1, 2⟩), (20, ⟨20, 5, 1, 3⟩), (30, ⟨30, 5, 1, 1⟩)] := by
  obtain ⟨t1, h1, h2, -, -⟩ :=
    drain_step { interval_ := 10, safeQueue_ := ⟨[⟨30, 5, 1, 1⟩, ⟨10, 5, 1, 2⟩], 2, 1024⟩,
                 multimapTimer_ := [(20, ⟨20, 5, 1, 3⟩)] } 2 (by simp [SafeQueue.Consistent])
  have hd : Timer.drain (⟨10, ⟨[⟨30, 5, 1, 1⟩, ⟨10, 5, 1, 2⟩], 2, 1024⟩,
      [(20, ⟨20, 5, 1, 3⟩)]⟩ : Timer) =
      some ⟨10, ⟨[], 0, 1024⟩,
        [(10, ⟨10, 5, 1, 2⟩), (20, ⟨20, 5, 1, 3⟩), (30, ⟨30, 5, 1, 1⟩)]⟩ := by
    decide
  rw [hd] at h1
  cases h1
  exact ⟨_, hd, by simpa using h2, rfl, rfl⟩

/-! ### The fire step -/

/-- C17 -- one scan of a multimap with `m` entries, for every queue state and
every sequence of clock readings: the scan ends, it invokes at most `m`
callbacks, the entries it was invoked for are the first entries of the
multimap, one per invocation and in order, and the entries that remain are the
rest of the multimap; registrations that are re-armed are appended to the queue
and never to the multimap being scanned, whatever their interval. -/
theorem fire_step_bounded (clock : Nat → Nat) (j : Nat) (q : SafeQueue TimerItem)
    (idx : List (Nat × TimerItem)) :
    (fireLoop clock j q idx).2.2.length ≤ idx.length ∧
    (fireLoop clock j q idx).2.1.length + (fireLoop clock j q idx).2.2.length = idx.length ∧
    idx = (fireLoop clock j q idx).2.2.map Fired.entry ++ (fireLoop clock j q idx).2.1 ∧
    (fireLoop clock j q idx).1.queue_ = q.queue_ ++ requeued (fireLoop clock j q idx).2.2 ∧
    (requeued (fireLoop clock j q idx).2.2).length ≤ (fireLoop clock j q idx).2.2.length := by
  obtain ⟨h1, h2, -, -, -, -⟩ := fireLoop_spec clock idx j q
  have hlen := congrArg List.length h1
  simp only [List.length_append, List.length_map] at hlen
  refine ⟨by omega, by omega, h1, h2, ?_⟩
  generalize (fireLoop clock j q idx).2.2 = log
  induction log with
  | nil => simp [requeued]
  | cons e es ih =>
    by_cases h : e.rearm = some true
    · simp only [requeued, h, if_true, List.length_cons]
      omega
    · simp only [requeued, h, if_false, List.length_cons]
      omega

theorem fullScan_of_late (now : Nat) (q : SafeQueue TimerItem) (idx : List (Nat × TimerItem))
    (h : ∀ x ∈ idx, now < x.1) : fullScan now q idx = (q, idx, []) := by
  induction idx with
  | nil => rfl
  | cons e rest ih =>
    have he : ¬ now ≥ e.1 := Nat.not_le.2 (h e (List.mem_cons_self _ _))
    have := ih (fun x hx => h x (List.mem_cons_of_mem _ hx))
    simp only [fullScan, he, if_false, this]

/-- C14 -- the early exit is sound.  On a multimap in ascending key order, with
the same clock value `now` read for every entry, the scan of lines 189-205 that
stops at the first entry with key `> now` gives the same queue, the same
remaining entries and the same invocations as a scan of the whole multimap that
fires every due entry; the invocations are those of the entries with key
`<= now`, in multimap order (ascending keys), and the entries left are those
with key `> now`. -/
theorem early_exit_sound (now j : Nat) (q : SafeQueue TimerItem) (idx : List (Nat × TimerItem))
    (h : Ascending idx) :
    fireLoop (fun _ => now) j q idx = fullScan now q idx ∧
    (fireLoop (fun _ => now) j q idx).2.2.map Fired.entry = idx.filter (fun e => e.1 ≤ now) ∧
    (fireLoop (fun _ => now) j q idx).2.1 = idx.filter (fun e => now < e.1) ∧
    Ascending ((fireLoop (fun _ => now) j q idx).2.2.map Fired.entry) := by
  have main : ∀ (idx : List (Nat × TimerItem)), Ascending idx → ∀ (j : Nat)
      (q : SafeQueue TimerItem),
      fireLoop (fun _ => now) j q idx = fullScan now q idx ∧
      (fireLoop (fun _ => now) j q idx).2.2.map Fired.entry = idx.filter (fun e => e.1 ≤ now) ∧
      (fireLoop (fun _ => now) j q idx).2.1 = idx.filter (fun e => now < e.1) := by
    intro idx
    induction idx with
    | nil => intro _ j q; simp [fireLoop, fullScan]
    | cons e rest ih =>
      intro hasc j q
      unfold Ascending at hasc
      rw [List.pairwise_cons] at hasc
      by_cases hdue : now ≥ e.1
      · obtain ⟨i1, i2, i3⟩ := ih hasc.2 (j + 1) (fireEntry now q e.1 e.2).1
        have hnot : ¬ now < e.1 := Nat.not_lt.2 hdue
        have hle : e.1 ≤ now := hdue
        refine ⟨?_, ?_, ?_⟩
        · simp only [fireLoop, fullScan, hdue, if_true, i1]
        · simp only [fireLoop, hdue, if_true, List.map_cons, i2]
          simp [List.filter_cons, hle, Fired.entry, (fireEntry_spec now q e.1 e.2).2.1,
            (fireEntry_spec now q e.1 e.2).2.2.1]
        · simp only [fireLoop, hdue, if_true, i3]
          simp [List.filter_cons, hnot]
      · have hlt : now < e.1 := Nat.lt_of_not_ge hdue
        have hlate : ∀ x ∈ rest, now < x.1 := fun x hx => Nat.lt_of_lt_of_le hlt (hasc.1 x hx)
        have hnle : ¬ e.1 ≤ now := Nat.not_le.2 hlt
        refine ⟨?_, ?_, ?_⟩
        · simp only [fireLoop, fullScan, hdue, if_false, fullScan_of_late now q rest hlate]
        · simp only [fireLoop, hdue, if_false, List.map_nil]
          symm
          rw [List.filter_eq_nil_iff]
          intro x hx
          rcases List.mem_cons.1 hx with rfl | hx
          · simpa using hlt
          · simpa using hlate x hx
        · simp only [fireLoop, hdue, if_false]
          symm
          rw [List.filter_eq_self]
          intro x hx
          rcases List.mem_cons.1 hx with rfl | hx
          · simpa using hlt
          · simpa using hlate x hx
  obtain ⟨h1, h2, h3⟩ := main idx h j q
  refine ⟨h1, h2, h3, ?_⟩
  rw [h2]
  exact List.Pairwise.sublist (List.filter_sublist _) h

/-- Witness for C14: entries due at 10, 20 and 30 scanned at clock value 20. -/
theorem early_exit_sound_witness :
    Ascending [(10, ⟨10, 5, 1, 1⟩), (20, ⟨20, 5, 2, 2⟩), (30, ⟨30, 5, 1, 3⟩)] ∧
    fireLoop (fun _ => 20) 0 (SafeQueue.new 1024)
        [(10, ⟨10, 5, 1, 1⟩), (20, ⟨20, 5, 2, 2⟩), (30, ⟨30, 5, 1, 3⟩)] =
      fullScan 20 (SafeQueue.new 1024)
        [(10, ⟨10, 5, 1, 1⟩), (20, ⟨20, 5, 2, 2⟩), (30, ⟨30, 5, 1, 3⟩)] ∧
    (fireLoop (fun _ => 20) 0 (SafeQueue.new 1024)
        [(10, ⟨10, 5, 1, 1⟩), (20, ⟨20, 5, 2, 2⟩), (30, ⟨30, 5, 1, 3⟩)]).2.1 =
      [(30, ⟨30, 5, 1, 3⟩)] :=
  have h : Ascending [(10, ⟨10, 5, 1, 1⟩), (20, ⟨20, 5, 2, 2⟩), (30, ⟨30, 5, 1, 3⟩)] := by
    simp [Ascending]
  ⟨h,
   (early_exit_sound 20 0 (SafeQueue.new 1024)
     [(10, ⟨10, 5, 1, 1⟩), (20, ⟨20, 5, 2, 2⟩), (30, ⟨30, 5, 1, 3⟩)] h).1,
   (early_exit_sound 20 0 (SafeQueue.new 1024)
     [(10, ⟨10, 5, 1, 1⟩), (20, ⟨20, 5, 2, 2⟩), (30, ⟨30, 5, 1, 3⟩)] h).2.2.1.trans
     (by decide)⟩

/-! ### A refused re-arming push -/

theorem fireEntry_full (now key : Nat) (q : SafeQueue TimerItem) (ti : TimerItem)
    (hfull : ¬ q.queue_size_ < q.size_limit_) :
    (fireEntry now q key ti).1 = q ∧
    (ti.countDown.execCount_ ≠ 0 →
      (fireEntry now q key ti).2 = { now := now, key := key, item := ti, rearm := some false }) := by
  unfold fireEntry
  by_cases h0 : ti.countDown.execCount_ = 0
  · simp [h0]
  · simp [h0, pushNoCondition_eq_of_not_lt _ _ hfull]

theorem fireLoop_full (clock : Nat → Nat) (idx : List (Nat × TimerItem)) :
    ∀ (j : Nat) (q : SafeQueue TimerItem), ¬ q.queue_size_ < q.size_limit_ →
      (fireLoop clock j q idx).1 = q := by
  induction idx with
  | nil => intro j q _; rfl
  | cons e rest ih =>
    intro j q hfull
    by_cases hdue : clock j ≥ e.1
    · have h1 := (fireEntry_full (clock j) e.1 q e.2 hfull).1
      simp only [fireLoop, hdue, if_true, h1]
      exact ih (j + 1) q hfull
    · simp only [fireLoop, hdue, if_false]

theorem rearmed_func (e : Fired) : e.rearmed.func_ = e.item.func_ := by
  unfold Fired.rearmed TimerItem.countDown
  split <;> rfl

theorem exec_absent (f : Nat) (evs : List Event) :
    ∀ s : Sched, s.timer.WF → (∀ x ∈ s.timer.registrations, x.func_ ≠ f) →
      (∀ now c i, Event.timerEvent now c i f ∉ evs) →
      ∃ s1 new, s.exec evs = some s1 ∧ s1.log = s.log ++ new ∧
        (∀ e ∈ new, e.item.func_ ≠ f) ∧ ∀ x ∈ s1.timer.registrations, x.func_ ≠ f := by
  induction evs with
  | nil => intro s _ h _; exact ⟨s, [], rfl, by simp, by simp, h⟩
  | cons ev evs ih =>
    intro s hwf hs hevs
    have hevs1 : ∀ now c i, Event.timerEvent now c i f ∉ evs :=
      fun now c i hm => hevs now c i (List.mem_cons_of_mem _ hm)
    cases ev with
    | timerEvent now c i g =>
      have hg : g ≠ f := by
        intro h
        exact hevs now c i (by rw [h]; exact List.mem_cons_self _ _)
      have hs1 : ∀ x ∈ (s.timer.timerEvent now c i g).registrations, x.func_ ≠ f := by
        intro x hx
        rcases timerEvent_registrations _ _ _ _ _ x hx with rfl | hx
        · exact hg
        · exact hs x hx
      obtain ⟨s1, new, g1, g2, g3, g4⟩ := ih { s with timer := s.timer.timerEvent now c i g }
        (timerEvent_WF _ _ _ _ _ hwf) hs1 hevs1
      exact ⟨s1, new, by simp only [Sched.exec, Sched.step, g1], g2, g3, g4⟩
    | poll clock =>
      obtain ⟨t1, log, h1, h2, h3, h4⟩ := pollIteration_registrations clock s.timer hwf
      have hs1 : ∀ x ∈ t1.registrations, x.func_ ≠ f := by
        intro x hx
        rcases h4 x hx with ⟨e, he, _, rfl⟩ | hx
        · rw [rearmed_func]
          exact hs _ (h3 e he).1
        · exact hs x hx
      obtain ⟨s1, new, g1, g2, g3, g4⟩ := ih { timer := t1, log := s.log ++ log } h2 hs1 hevs1
      refine ⟨s1, log ++ new, by simp only [Sched.exec, Sched.step, h1, g1], ?_, ?_, g4⟩
      · rw [g2, List.append_assoc]
      · intro e he
        rcases List.mem_append.1 he with he | he
        · exact hs _ (h3 e he).1
        · exact g3 e he

/-- C12 -- a dropped re-arming is permanent.  The scan stands at a due entry
`(key, ti)` whose count after the decrement is not zero, the queue is full, and
no other registration held by the timer uses the callback of `ti`.  Then the
callback is invoked, the push of line 198 is refused, and after the fire step
the queue is exactly what it was and neither the queue nor the multimap holds a
registration for that callback; it is not invoked again in that fire step, nor
in any later run of poll iterations and `timerEvent` calls for other
callbacks. -/
theorem dropped_rearm_is_lost (t : Timer) (clock : Nat → Nat) (key : Nat) (ti : TimerItem)
    (rest : List (Nat × TimerItem)) (log0 : List Fired) (evs : List Event)
    (hwf : t.WF) (hidx : t.multimapTimer_ = (key, ti) :: rest) (hdue : key ≤ clock 0)
    (hfull : ¬ t.safeQueue_.queue_size_ < t.safeQueue_.size_limit_)
    (hcount : ti.countDown.execCount_ ≠ 0)
    (hother : ∀ x ∈ t.safeQueue_.queue_ ++ rest.map Prod.snd, x.func_ ≠ ti.func_)
    (hevs : ∀ now c i, Event.timerEvent now c i ti.func_ ∉ evs) :
    (t.fire clock).2.head? =
      some { now := clock 0, key := key, item := ti, rearm := some false } ∧
    (∀ e ∈ (t.fire clock).2.tail, e.item.func_ ≠ ti.func_) ∧
    (t.fire clock).1.safeQueue_ = t.safeQueue_ ∧
    (∀ x ∈ (t.fire clock).1.registrations, x.func_ ≠ ti.func_) ∧
    ∃ s1 new, Sched.exec { timer := (t.fire clock).1, log := log0 } evs = some s1 ∧
      s1.log = log0 ++ new ∧ (∀ e ∈ new, e.item.func_ ≠ ti.func_) ∧
      ∀ x ∈ s1.timer.registrations, x.func_ ≠ ti.func_ := by
  obtain ⟨hq, hk, ha⟩ := hwf
  have hge : clock 0 ≥ key := hdue
  have hentry := fireEntry_full (clock 0) key t.safeQueue_ ti hfull
  obtain ⟨f1, f2, f3, f4, f5, f6⟩ := fireLoop_spec clock rest 1 t.safeQueue_
  have hfire : t.fire clock =
      ({ t with safeQueue_ := (fireLoop clock 1 t.safeQueue_ rest).1,
                multimapTimer_ := (fireLoop clock 1 t.safeQueue_ rest).2.1 },
       { now := clock 0, key := key, item := ti, rearm := some false } ::
         (fireLoop clock 1 t.safeQueue_ rest).2.2) := by
    simp only [Timer.fire, hidx, fireLoop, hge, if_true, hentry.1, hentry.2 hcount, Nat.zero_add]
  have hqueue : (fireLoop clock 1 t.safeQueue_ rest).1 = t.safeQueue_ :=
    fireLoop_full clock rest 1 t.safeQueue_ hfull
  have hrestmem : ∀ e ∈ (fireLoop clock 1 t.safeQueue_ rest).2.1, e ∈ rest := by
    intro e he
    rw [f1]
    exact List.mem_append_right _ he
  have hlogmem : ∀ e ∈ (fireLoop clock 1 t.safeQueue_ rest).2.2, e.item.func_ ≠ ti.func_ := by
    intro e he
    apply hother
    apply List.mem_append_right
    rw [f1]
    simp only [List.map_append, List.map_map, List.mem_append, List.mem_map,
      Function.comp_apply]
    exact Or.inl ⟨e, he, rfl⟩
  have habsent : ∀ x ∈ (t.fire clock).1.registrations, x.func_ ≠ ti.func_ := by
    intro x hx
    rw [hfire] at hx
    unfold Timer.registrations at hx
    simp only [hqueue] at hx
    rcases List.mem_append.1 hx with hx | hx
    · exact hother x (List.mem_append_left _ hx)
    · obtain ⟨e, he, rfl⟩ := List.mem_map.1 hx
      exact hother _ (List.mem_append_right _ (List.mem_map.2 ⟨e, hrestmem e he, rfl⟩))
  have hwf1 : (t.fire clock).1.WF := by
    rw [hfire]
    refine ⟨?_, ?_, ?_⟩
    · simp only [hqueue]
      exact hq
    · intro e he
      exact hk e (by rw [hidx]; exact List.mem_cons_of_mem _ (hrestmem e he))
    · unfold Ascending at ha ⊢
      rw [hidx, List.pairwise_cons] at ha
      have := ha.2
      rw [f1] at this
      exact (List.pairwise_append.1 this).2.1
  refine ⟨by rw [hfire]; rfl, ?_, by rw [hfire]; exact hqueue, habsent, ?_⟩
  · rw [hfire]
    exact hlogmem
  · exact exec_absent ti.func_ evs { timer := (t.fire clock).1, log := log0 } hwf1 habsent hevs

theorem exec_replicate_timerEvent (iv : Int) (idx : List (Nat × TimerItem)) (log : List Fired)
    (n : Nat) :
    ∀ k : Nat, k + n ≤ 1024 →
      Sched.exec
          { timer := { interval_ := iv,
                       safeQueue_ := ⟨List.replicate k ⟨500, 5, 1, 9⟩, (k : Int), 1024⟩,
                       multimapTimer_ := idx },
            log := log }
          (List.replicate n (Event.timerEvent 495 1 5 9)) =
        some { timer := { interval_ := iv,
                          safeQueue_ := ⟨List.replicate (k + n) ⟨500, 5, 1, 9⟩,
                                         ((k + n : Nat) : Int), 1024⟩,
                          multimapTimer_ := idx },
               log := log } := by
  induction n with
  | zero => intro k _; rfl
  | succ n ih =>
    intro k hk
    have hlt : ((k : Nat) : Int) < 1024 := by omega
    have hstep : (SafeQueue.pushNoCondition
        (⟨List.replicate k ⟨500, 5, 1, 9⟩, (k : Int), 1024⟩ : SafeQueue TimerItem)
        (TimerItem.new 495 1 5 9)).2 =
        ⟨List.replicate (k + 1) ⟨500, 5, 1, 9⟩, ((k + 1 : Nat) : Int), 1024⟩ := by
      rw [pushNoCondition_eq_of_lt
        (⟨List.replicate k ⟨500, 5, 1, 9⟩, (k : Int), 1024⟩ : SafeQueue TimerItem)
        (TimerItem.new 495 1 5 9) hlt]
      show (⟨List.replicate k ⟨500, 5, 1, 9⟩ ++ [⟨500, 5, 1, 9⟩], (k : Int) + 1, 1024⟩ :
        SafeQueue TimerItem) = _
      rw [List.replicate_succ', Nat.cast_succ]
    have := ih (k + 1) (by omega)
    have hk1 : k + 1 + n = k + (n + 1) := by omega
    rw [hk1] at this
    simp only [List.replicate_succ, Sched.exec, Sched.step, Timer.timerEvent, hstep]
    exact this

/-- The timer `fullTimer` is reached from a fresh timer: one registration for
callback 1 is made and indexed, then 1024 registrations for callback 9 are
made. -/
theorem fullTimer_reachable :
    (Sched.fresh 10).exec
        ([Event.timerEvent 95 2 5 1, Event.poll (fun _ => 0)] ++
          List.replicate 1024 (Event.timerEvent 495 1 5 9)) =
      some { timer := fullTimer, log := [] } := by
  rw [exec_append]
  have h1 : (Sched.fresh 10).exec [Event.timerEvent 95 2 5 1, Event.poll (fun _ => 0)] =
      some { timer := { interval_ := 10,
                        safeQueue_ := ⟨List.replicate 0 ⟨500, 5, 1, 9⟩, ((0 : Nat) : Int), 1024⟩,
                        multimapTimer_ := [(100, ⟨100, 5, 2, 1⟩)] },
             log := [] } := by
    decide
  rw [h1]
  have := exec_replicate_timerEvent 10 [(100, ⟨100, 5, 2, 1⟩)] [] 1024 0 (by omega)
  exact this

theorem fullTimer_WF : fullTimer.WF := by
  refine ⟨?_, ?_, ?_⟩
  · show (1024 : Int) = ((List.replicate 1024 (⟨500, 5, 1, 9⟩ : TimerItem)).length : Int)
    rw [List.length_replicate]
    rfl
  · intro e he
    have he1 : e ∈ [((100 : Nat), (⟨100, 5, 2, 1⟩ : TimerItem))] := he
    rw [List.mem_singleton] at he1
    rw [he1]
  · exact List.pairwise_singleton _ _

theorem fullTimer_full :
    ¬ fullTimer.safeQueue_.queue_size_ < fullTimer.safeQueue_.size_limit_ := by
  show ¬ ((1024 : Int) < 1024)
  omega

/-- Witness for C12: on `fullTimer` the entry due at 100 (callback 1, count 2)
fires at clock value 100 while the queue holds 1024 registrations; a poll
iteration at clock value 200 follows. -/
theorem dropped_rearm_is_lost_witness :
    ¬ fullTimer.safeQueue_.queue_size_ < fullTimer.safeQueue_.size_limit_ ∧
    (fullTimer.fire (fun _ => 100)).2.head? =
      some { now := 100, key := 100, item := ⟨100, 5, 2, 1⟩, rearm := some false } ∧
    (fullTimer.fire (fun _ => 100)).1.safeQueue_ = fullTimer.safeQueue_ ∧
    (∀ x ∈ (fullTimer.fire (fun _ => 100)).1.registrations, x.func_ ≠ 1) ∧
    ∃ s1 new,
      Sched.exec { timer := (fullTimer.fire (fun _ => 100)).1, log := [] }
        [Event.poll (fun _ => 200)] = some s1 ∧
      s1.log = [] ++ new ∧ (∀ e ∈ new, e.item.func_ ≠ 1) ∧
      ∀ x ∈ s1.timer.registrations, x.func_ ≠ 1 :=
  have h := dropped_rearm_is_lost fullTimer (fun _ => 100) 100 ⟨100, 5, 2, 1⟩ [] []
    [Event.poll (fun _ => 200)] fullTimer_WF rfl (Nat.le_refl _)
    fullTimer_full (by decide)
    (by
      intro x hx
      rw [List.map_nil, List.append_nil] at hx
      have hx1 : x ∈ List.replicate 1024 (⟨500, 5, 1, 9⟩ : TimerItem) := hx
      rw [List.eq_of_mem_replicate hx1]
      decide)
    (by intro now c i hm; simp at hm)
  ⟨fullTimer_full, h.1, h.2.2.1, h.2.2.2.1, h.2.2.2.2⟩

/-! ### What `timerEvent` tells its caller -/

/-- C11, counterexample -- `timerEvent` is `void`.  The same call on a fresh
timer, where the registration is enqueued, and on `fullTimer`, where it is
dropped, hands the same value back to the caller; so no boolean read off the
returned value is `true` exactly when the queue size is below the capacity. -/
theorem timerEvent_returns_nothing :
    ((Timer.new 10).timerEventCall 0 1 5 7).1 = (fullTimer.timerEventCall 0 1 5 7).1 ∧
    ((Timer.new 10).timerEventCall 0 1 5 7).2.safeQueue_ = ⟨[⟨5, 5, 1, 7⟩], 1, 1024⟩ ∧
    (fullTimer.timerEventCall 0 1 5 7).2 = fullTimer ∧
    ¬ ∃ report : Unit → Bool, ∀ (t : Timer) (now : Nat) (c : Int) (i f : Nat),
        (report (t.timerEventCall now c i f).1 = true ↔
          t.safeQueue_.queue_size_ < t.safeQueue_.size_limit_) := by
  have hdrop : (fullTimer.timerEventCall 0 1 5 7).2 = fullTimer := by
    show ({ fullTimer with safeQueue_ :=
      (fullTimer.safeQueue_.pushNoCondition (TimerItem.new 0 1 5 7)).2 } : Timer) = fullTimer
    rw [pushNoCondition_eq_of_not_lt fullTimer.safeQueue_ (TimerItem.new 0 1 5 7) fullTimer_full]
  refine ⟨rfl, by decide, hdrop, ?_⟩
  rintro ⟨report, h⟩
  have h1 := (h (Timer.new 10) 0 1 5 7).2 (by decide)
  have h2 := (h fullTimer 0 1 5 7).1
  exact fullTimer_full (h2 h1)

/-- C11, amended -- `timerEvent` returns nothing and discards the boolean of
its push: the registration `(now + i, i, c, w)` is enqueued exactly when the
queue size is below the capacity, which is exactly when the discarded boolean
is `true`, and otherwise the timer is left as it was. -/
theorem timerEventCall_spec (t : Timer) (now : Nat) (c : Int) (i w : Nat) :
    (t.timerEventCall now c i w).1 = () ∧
    ((t.safeQueue_.pushNoCondition (TimerItem.new now c i w)).1 = true ↔
      t.safeQueue_.queue_size_ < t.safeQueue_.size_limit_) ∧
    (t.timerEventCall now c i w).2 =
      if t.safeQueue_.queue_size_ < t.safeQueue_.size_limit_ then
        { t with safeQueue_ :=
            { queue_ := t.safeQueue_.queue_ ++
                [{ timePoint_ := now + i, interval_ := i, execCount_ := c, func_ := w }],
              queue_size_ := t.safeQueue_.queue_size_ + 1,
              size_limit_ := t.safeQueue_.size_limit_ } }
      else t := by
  refine ⟨rfl, ?_, ?_⟩
  · by_cases h : t.safeQueue_.queue_size_ < t.safeQueue_.size_limit_
    · simp [pushNoCondition_eq_of_lt _ _ h, h]
    · simp [pushNoCondition_eq_of_not_lt _ _ h, h]
  · by_cases h : t.safeQueue_.queue_size_ < t.safeQueue_.size_limit_
    · simp [Timer.timerEventCall, Timer.timerEvent, pushNoCondition_eq_of_lt _ _ h, h,
        TimerItem.new]
    · simp [Timer.timerEventCall, Timer.timerEvent, pushNoCondition_eq_of_not_lt _ _ h, h]

/-! ### How many registrations a timer holds -/

theorem fireLoop_of_late (clock : Nat → Nat) (j : Nat) (q : SafeQueue TimerItem)
    (idx : List (Nat × TimerItem)) (h : ∀ e ∈ idx, clock j < e.1) :
    fireLoop clock j q idx = (q, idx, []) := by
  cases idx with
  | nil => rfl
  | cons e rest =>
    have he : ¬ clock j ≥ e.1 := Nat.not_le.2 (h e (List.mem_cons_self _ _))
    simp only [fireLoop, he, if_false]

theorem exec_growthRun (n : Nat) :
    ∀ s : Sched, s.timer.safeQueue_ = SafeQueue.new 1024 →
      (∀ e ∈ s.timer.multimapTimer_, 0 < e.1) →
      ∃ s1, s.exec (growthRun n) = some s1 ∧ s1.timer.safeQueue_ = SafeQueue.new 1024 ∧
        (∀ e ∈ s1.timer.multimapTimer_, 0 < e.1) ∧
        s1.timer.multimapTimer_.length = s.timer.multimapTimer_.length + n ∧
        s1.log = s.log := by
  induction n with
  | zero => intro s h1 h2; exact ⟨s, rfl, h1, h2, rfl, rfl⟩
  | succ n ih =>
    intro s hq hkeys
    obtain ⟨⟨iv, q, idx⟩, log⟩ := s
    simp only at hq hkeys
    subst hq
    have hlate : ∀ e ∈ multimapInsert 100 ⟨100, 100, 1, 7⟩ idx, (fun _ : Nat => 0) 0 < e.1 := by
      intro e he
      rcases (mem_multimapInsert _ _ _ e).1 he with rfl | he
      · exact Nat.zero_lt_succ _
      · exact hkeys e he
    have hstep : Sched.exec { timer := ⟨iv, SafeQueue.new 1024, idx⟩, log := log }
        [Event.timerEvent 0 1 100 7, Event.poll (fun _ => 0)] =
        some { timer := ⟨iv, SafeQueue.new 1024, multimapInsert 100 ⟨100, 100, 1, 7⟩ idx⟩,
               log := log } := by
      have hfl := fireLoop_of_late (fun _ => 0) 0
        ({ queue_ := [], queue_size_ := 0, size_limit_ := 1024 } : SafeQueue TimerItem)
        (multimapInsert 100 ⟨100, 100, 1, 7⟩ idx) hlate
      simp [Sched.exec, Sched.step, Timer.timerEvent, Timer.pollIteration, Timer.drain,
        Timer.drainLoop, SafeQueue.new, SafeQueue.pushNoCondition, SafeQueue.getNoCondition,
        SafeQueue.takeFront, TimerItem.new, Timer.fire, hfl]
    obtain ⟨s1, g1, g2, g3, g4, g5⟩ :=
      ih { timer := ⟨iv, SafeQueue.new 1024, multimapInsert 100 ⟨100, 100, 1, 7⟩ idx⟩,
           log := log } rfl hlate
    refine ⟨s1, ?_, g2, g3, ?_, g5⟩
    · have := exec_append [Event.timerEvent 0 1 100 7, Event.poll (fun _ => 0)] (growthRun n)
        { timer := ⟨iv, SafeQueue.new 1024, idx⟩, log := log }
      rw [hstep] at this
      show Sched.exec _ ([Event.timerEvent 0 1 100 7, Event.poll (fun _ => 0)] ++ growthRun n) = _
      rw [this]
      exact g1
    · rw [g4]
      simp only [(multimapInsert_perm _ _ _).length_eq, List.length_cons]
      omega

/-- C13, counterexample -- after `n` rounds of "register a timer due at 100,
poll at clock value 0" a fresh timer holds `n` entries in its multimap, for
every `n`; so no number bounds the registrations held in the states reached
from a fresh timer (whose capacity is always 1024). -/
theorem multimap_grows_without_bound :
    (∀ n : Nat, ∃ s, (Sched.fresh 10).exec (growthRun n) = some s ∧
      s.timer.multimapTimer_.length = n) ∧
    ¬ ∃ B : Nat, ∀ (evs : List Event) (s : Sched),
        (Sched.fresh 10).exec evs = some s → s.timer.registrations.length ≤ B := by
  have h : ∀ n : Nat, ∃ s, (Sched.fresh 10).exec (growthRun n) = some s ∧
      s.timer.multimapTimer_.length = n := by
    intro n
    obtain ⟨s, h1, -, -, h4, -⟩ := exec_growthRun n (Sched.fresh 10) rfl
      (by intro e he; exact absurd he (List.not_mem_nil _))
    exact ⟨s, h1, by rw [h4]; simp [Sched.fresh, Timer.new]⟩
  refine ⟨h, ?_⟩
  rintro ⟨B, hB⟩
  obtain ⟨s, h1, h2⟩ := h (B + 1)
  have := hB _ s h1
  unfold Timer.registrations at this
  rw [List.length_append, List.length_map, h2] at this
  omega

theorem requeued_length_le (log : List Fired) : (requeued log).length ≤ log.length := by
  induction log with
  | nil => simp [requeued]
  | cons e es ih =>
    by_cases h : e.rearm = some true
    · simp only [requeued, h, if_true, List.length_cons]
      omega
    · simp only [requeued, h, if_false, List.length_cons]
      omega

theorem pushNoCondition_size_le {T : Type} (q : SafeQueue T) (value : T)
    (h : q.queue_size_ ≤ q.size_limit_) :
    (q.pushNoCondition value).2.queue_size_ ≤ (q.pushNoCondition value).2.size_limit_ := by
  by_cases hlt : q.queue_size_ < q.size_limit_
  · rw [pushNoCondition_eq_of_lt q value hlt]
    simp only
    omega
  · rw [pushNoCondition_eq_of_not_lt q value hlt]
    exact h

theorem fireLoop_size_le (clock : Nat → Nat) (idx : List (Nat × TimerItem)) :
    ∀ (j : Nat) (q : SafeQueue TimerItem), q.queue_size_ ≤ q.size_limit_ →
      (fireLoop clock j q idx).1.queue_size_ ≤ (fireLoop clock j q idx).1.size_limit_ := by
  induction idx with
  | nil => intro j q h; exact h
  | cons e rest ih =>
    intro j q h
    by_cases hdue : clock j ≥ e.1
    · simp only [fireLoop, hdue, if_true]
      apply ih
      unfold fireEntry
      by_cases h0 : e.2.countDown.execCount_ = 0
      · simpa [h0] using h
      · simp only [ne_eq, h0, not_false_eq_true, if_true]
        exact pushNoCondition_size_le _ _ h
    · simpa only [fireLoop, hdue, if_false] using h

theorem pollIteration_bounded (clock : Nat → Nat) (t : Timer) (h : t.WF)
    (hle : t.safeQueue_.queue_size_ ≤ t.safeQueue_.size_limit_) :
    ∃ t1 log, t.pollIteration clock = some (t1, log) ∧ t1.WF ∧
      t1.safeQueue_.queue_size_ ≤ t1.safeQueue_.size_limit_ ∧
      t1.safeQueue_.size_limit_ = t.safeQueue_.size_limit_ ∧
      t1.registrations.length ≤ t.registrations.length := by
  obtain ⟨t1, log, h1, h2, h3, -, h5, h6, -, -, -⟩ := pollIteration_spec clock t h
  have h0 : (0 : Int) ≤ t.safeQueue_.size_limit_ := by
    have := h.1
    unfold SafeQueue.Consistent at this
    omega
  have hq : t1.safeQueue_ = (fireLoop clock 0
      { queue_ := [], queue_size_ := 0, size_limit_ := t.safeQueue_.size_limit_ }
      (insertAll t.safeQueue_.queue_ t.multimapTimer_)).1 := by
    have hp := h1
    simp only [Timer.pollIteration, drain_spec t h.1, Timer.fire, Option.some.injEq,
      Prod.mk.injEq] at hp
    rw [← hp.1]
  refine ⟨t1, log, h1, h2, ?_, h6, ?_⟩
  · rw [hq]
    exact fireLoop_size_le clock _ 0 _ h0
  · have hlen := congrArg List.length h3
    rw [(insertAll_perm _ _).length_eq] at hlen
    simp only [List.length_append, List.length_map] at hlen
    unfold Timer.registrations
    rw [h5]
    simp only [List.length_append, List.length_map]
    have := requeued_length_le log
    omega

theorem exec_bounded (evs : List Event) :
    ∀ s : Sched, s.timer.WF → s.timer.safeQueue_.queue_size_ ≤ s.timer.safeQueue_.size_limit_ →
      ∃ s1, s.exec evs = some s1 ∧ s1.timer.WF ∧
        s1.timer.safeQueue_.queue_size_ ≤ s1.timer.safeQueue_.size_limit_ ∧
        s1.timer.safeQueue_.size_limit_ = s.timer.safeQueue_.size_limit_ ∧
        s1.timer.registrations.length ≤ s.timer.registrations.length + scheduleCalls evs := by
  induction evs with
  | nil => intro s h1 h2; exact ⟨s, rfl, h1, h2, rfl, by simp [scheduleCalls]⟩
  | cons ev evs ih =>
    intro s hwf hle
    cases ev with
    | timerEvent now c i f =>
      obtain ⟨s1, g1, g2, g3, g4, g5⟩ := ih { s with timer := s.timer.timerEvent now c i f }
        (timerEvent_WF _ _ _ _ _ hwf) (pushNoCondition_size_le _ _ hle)
      refine ⟨s1, by simp only [Sched.exec, Sched.step, g1], g2, g3, ?_, ?_⟩
      · rw [g4]
        exact pushNoCondition_size_limit _ _
      · have hlen : (s.timer.timerEvent now c i f).registrations.length ≤
            s.timer.registrations.length + 1 := by
          unfold Timer.registrations
          by_cases h : s.timer.safeQueue_.queue_size_ < s.timer.safeQueue_.size_limit_
          · simp [Timer.timerEvent, pushNoCondition_eq_of_lt _ _ h]
            omega
          · simp [Timer.timerEvent, pushNoCondition_eq_of_not_lt _ _ h]
        simp only [scheduleCalls]
        simp only at g5
        omega
    | poll clock =>
      obtain ⟨t1, log, h1, h2, h3, h4, h5⟩ := pollIteration_bounded clock s.timer hwf hle
      obtain ⟨s1, g1, g2, g3, g4, g5⟩ := ih { timer := t1, log := s.log ++ log } h2 h3
      refine ⟨s1, by simp only [Sched.exec, Sched.step, h1, g1], g2, g3, ?_, ?_⟩
      · rw [g4, h4]
      · simp only [scheduleCalls]
        simp only at g5
        omega

/-- C13, amended -- in every state reached from a fresh timer by `timerEvent`
calls and poll iterations the queue holds at most 1024 registrations (its
capacity), and the queue and the multimap together hold at most as many
registrations as `timerEvent` calls were made. -/
theorem registrations_bounded_by_calls (interval : Int) (evs : List Event) :
    ∃ s, (Sched.fresh interval).exec evs = some s ∧
      s.timer.safeQueue_.queue_.length ≤ 1024 ∧
      s.timer.registrations.length ≤ scheduleCalls evs := by
  obtain ⟨s, h1, h2, h3, h4, h5⟩ := exec_bounded evs (Sched.fresh interval) (fresh_WF interval)
    (by simp [Sched.fresh, Timer.new, SafeQueue.new])
  refine ⟨s, h1, ?_, ?_⟩
  · have hc := h2.1
    unfold SafeQueue.Consistent at hc
    have hlim : s.timer.safeQueue_.size_limit_ = 1024 := by rw [h4]; rfl
    omega
  · have : (Sched.fresh interval).timer.registrations.length = 0 := by
      simp [Sched.fresh, Timer.new, Timer.registrations, SafeQueue.new]
    omega

end Tool
